import Mathlib

/-!
Verification development for the tket Clifford tableau converters
(`src/tket/src/Converters/CliffTableauConverters.cpp`).

The file shallowly embeds `circuit_to_tableau` and `tableau_to_circuit`
together with the collaborators they use (`CliffTableau` and its gate
application rules, `gaussian_elimination_col_ops`,
`binary_LLT_decomposition`).  The two converter functions are translated
directly from the C++ source; the collaborators are declared elsewhere in
the repository and are modelled from the design specification, as noted in
their doc comments.
-/

namespace Tket

/-- Binary (GF(2)) matrix, addressed as `M row col`; only the `n × n`
window of a size-`n` tableau is meaningful. -/
abbrev Mat : Type := Nat → Nat → Bool

/-- Binary phase vector, one bit per tableau row. -/
abbrev Vec : Type := Nat → Bool

/-- Gate kinds.  `H`, `S`, `V`, `CX`, `X`, `Z` are the Clifford kinds this
core manipulates; `Other k` stands for any of the remaining members of the
external gate-type enumeration (non-Clifford kinds). -/
inductive OpType where
  | H
  | S
  | V
  | CX
  | X
  | Z
  | Other (code : Nat)
deriving DecidableEq

/-- One circuit operation: a gate kind plus its ordered qubit operands. -/
structure Op where
  type : OpType
  args : List Nat
deriving DecidableEq

/-- A circuit: the distinct qubit labels it acts on (in the stable order the
container enumerates them) and its ordered gate sequence. -/
structure Circuit where
  qubits : List Nat
  cmds : List Op
deriving DecidableEq

/-- Modelled from the spec: the Clifford tableau data model (§3).  Rows of
the `zpauli` triple encode the conjugated `Z_i` generators (stabilizers),
rows of the `xpauli` triple the conjugated `X_i` generators
(destabilizers); columns index qubits.  `qubits` is the label side of the
label/index bijection, in index order.  The C++ class `CliffTableau` is
declared outside this translation unit. -/
structure CliffTableau where
  size : Nat
  qubits : List Nat
  xpauli_x : Mat
  xpauli_z : Mat
  xpauli_phase : Vec
  zpauli_x : Mat
  zpauli_z : Mat
  zpauli_phase : Vec

/-- Modelled from the spec: the identity tableau over an explicit qubit set
(§3 lifecycle): destabilizer rows `X_i`, stabilizer rows `Z_i`, phases 0. -/
def CliffTableau.init (qs : List Nat) : CliffTableau :=
  { size := qs.length
    qubits := qs
    xpauli_x := fun i j => i == j
    xpauli_z := fun _ _ => false
    xpauli_phase := fun _ => false
    zpauli_x := fun _ _ => false
    zpauli_z := fun i j => i == j
    zpauli_phase := fun _ => false }

/-! ### Front applications (synthesis side)

Modelled from the spec (§4.2): each front application conjugates every
tableau row at the affected qubit column(s), following the standard
stabilizer conjugation tables.  Only rows `< n` are touched, matching the
`for (i < size_)` loops of the C++ implementation. -/

/-- Modelled from the spec: phase update for a front `S` on qubit `q`
(`X ↦ -Y`, `Y ↦ X`, `Z ↦ Z`): a row's sign flips exactly when it holds `X`
at `q`. -/
def colPhaseS (n q : Nat) (X Z : Mat) (ph : Vec) : Vec :=
  fun r => if r < n then ph r ^^ (X r q && !(Z r q)) else ph r

/-- Modelled from the spec: bit update for a front `S` on qubit `q`: the
`z` bit at column `q` absorbs the `x` bit. -/
def colZxorX (n q : Nat) (X Z : Mat) : Mat :=
  fun r j => if r < n && j == q then Z r j ^^ X r j else Z r j

/-- Modelled from the spec: `apply_S_at_front` (§4.2). -/
def CliffTableau.apply_S_at_front (t : CliffTableau) (q : Nat) : CliffTableau :=
  { t with
    xpauli_z := colZxorX t.size q t.xpauli_x t.xpauli_z
    xpauli_phase := colPhaseS t.size q t.xpauli_x t.xpauli_z t.xpauli_phase
    zpauli_z := colZxorX t.size q t.zpauli_x t.zpauli_z
    zpauli_phase := colPhaseS t.size q t.zpauli_x t.zpauli_z t.zpauli_phase }

/-- Modelled from the spec: phase update for a front `V` on qubit `q`
(`X ↦ X`, `Z ↦ Y`, `Y ↦ -Z`): a row's sign flips exactly when it holds `Y`
at `q`. -/
def colPhaseV (n q : Nat) (X Z : Mat) (ph : Vec) : Vec :=
  fun r => if r < n then ph r ^^ (X r q && Z r q) else ph r

/-- Modelled from the spec: bit update for a front `V` on qubit `q`: the
`x` bit at column `q` absorbs the `z` bit. -/
def colXxorZ (n q : Nat) (X Z : Mat) : Mat :=
  fun r j => if r < n && j == q then X r j ^^ Z r j else X r j

/-- Modelled from the spec: `apply_V_at_front` (§4.2). -/
def CliffTableau.apply_V_at_front (t : CliffTableau) (q : Nat) : CliffTableau :=
  { t with
    xpauli_x := colXxorZ t.size q t.xpauli_x t.xpauli_z
    xpauli_phase := colPhaseV t.size q t.xpauli_x t.xpauli_z t.xpauli_phase
    zpauli_x := colXxorZ t.size q t.zpauli_x t.zpauli_z
    zpauli_phase := colPhaseV t.size q t.zpauli_x t.zpauli_z t.zpauli_phase }

/-- Modelled from the spec: phase update for a front `CX` with target `a`,
control `b` (standard rule `r ^= x_ctl z_tgt (x_tgt ⊕ z_ctl ⊕ 1)`).  The
operand order (target first) is fixed by §4.1: a recorded column operation
`(target, source)` is replayed by `apply_CX_at_front` on that same pair and
must XOR column `source` into column `target` of the `x` matrices. -/
def colPhaseCX (n a b : Nat) (X Z : Mat) (ph : Vec) : Vec :=
  fun r => if r < n then ph r ^^ (X r b && Z r a && !(X r a ^^ Z r b)) else ph r

/-- Modelled from the spec: `x` bit update for a front `CX` with target
`a`, control `b`: column `a` of the `x` matrix absorbs column `b`. -/
def colCXX (n a b : Nat) (X : Mat) : Mat :=
  fun r j => if r < n && j == a then X r j ^^ X r b else X r j

/-- Modelled from the spec: `z` bit update for a front `CX` with target
`a`, control `b`: column `b` of the `z` matrix absorbs column `a`. -/
def colCXZ (n a b : Nat) (Z : Mat) : Mat :=
  fun r j => if r < n && j == b then Z r j ^^ Z r a else Z r j

/-- Modelled from the spec: `apply_CX_at_front` with target `a` and
control `b` (§4.2, operand order fixed by the §4.1 replay pairing). -/
def CliffTableau.apply_CX_at_front (t : CliffTableau) (a b : Nat) : CliffTableau :=
  { t with
    xpauli_x := colCXX t.size a b t.xpauli_x
    xpauli_z := colCXZ t.size a b t.xpauli_z
    xpauli_phase := colPhaseCX t.size a b t.xpauli_x t.xpauli_z t.xpauli_phase
    zpauli_x := colCXX t.size a b t.zpauli_x
    zpauli_z := colCXZ t.size a b t.zpauli_z
    zpauli_phase := colPhaseCX t.size a b t.zpauli_x t.zpauli_z t.zpauli_phase }

/-! ### End applications (simulation side)

Modelled from the spec (§4.2): appending a gate rewrites the generator rows
it conjugates, multiplying tableau rows together with the standard
Aaronson-Gottesman sign bookkeeping. -/

/-- Modelled from the spec: the Aaronson-Gottesman `g` function, the
exponent of `i` produced when the single-qubit Pauli `(x1,z1)` is
multiplied by `(x2,z2)`. -/
def gInt (x1 z1 x2 z2 : Bool) : Int :=
  if !x1 && !z1 then 0
  else if x1 && z1 then (cond z2 1 0 : Int) - cond x2 1 0
  else if x1 && !z1 then cond z2 (2 * (cond x2 1 0 : Int) - 1) 0
  else cond x2 (1 - 2 * (cond z2 1 0 : Int)) 0

/-- Modelled from the spec: total `i` exponent of the product of two rows,
summed over the first `n` qubit columns. -/
def gRowSum (n : Nat) (xa za xb zb : Nat → Bool) : Int :=
  (List.range n).foldl (fun s j => s + gInt (xa j) (za j) (xb j) (zb j)) 0

/-- Modelled from the spec: resulting sign bit of a row product carrying an
extra `i` exponent `e`: the sign is `-1` exactly when the total exponent is
`2 (mod 4)`. -/
def phMul (pha phb : Bool) (g e : Int) : Bool :=
  (2 * (cond pha 1 0 : Int) + 2 * cond phb 1 0 + g + e) % 4 == 2

/-- Modelled from the spec: `apply_S_at_end` on qubit `q`: the destabilizer
row `q` becomes `-i` times the product of destabilizer row `q` and
stabilizer row `q`; stabilizer rows are unchanged. -/
def CliffTableau.apply_S_at_end (t : CliffTableau) (q : Nat) : CliffTableau :=
  { t with
    xpauli_x := fun r j => if r == q then t.xpauli_x r j ^^ t.zpauli_x r j else t.xpauli_x r j
    xpauli_z := fun r j => if r == q then t.xpauli_z r j ^^ t.zpauli_z r j else t.xpauli_z r j
    xpauli_phase := fun r =>
      if r == q then
        phMul (t.xpauli_phase q) (t.zpauli_phase q)
          (gRowSum t.size (t.xpauli_x q) (t.xpauli_z q) (t.zpauli_x q) (t.zpauli_z q)) 3
      else t.xpauli_phase r }

/-- Modelled from the spec: `apply_V_at_end` on qubit `q`: the stabilizer
row `q` becomes `i` times the product of destabilizer row `q` and
stabilizer row `q`; destabilizer rows are unchanged. -/
def CliffTableau.apply_V_at_end (t : CliffTableau) (q : Nat) : CliffTableau :=
  { t with
    zpauli_x := fun r j => if r == q then t.zpauli_x r j ^^ t.xpauli_x r j else t.zpauli_x r j
    zpauli_z := fun r j => if r == q then t.zpauli_z r j ^^ t.xpauli_z r j else t.zpauli_z r j
    zpauli_phase := fun r =>
      if r == q then
        phMul (t.xpauli_phase q) (t.zpauli_phase q)
          (gRowSum t.size (t.xpauli_x q) (t.xpauli_z q) (t.zpauli_x q) (t.zpauli_z q)) 1
      else t.zpauli_phase r }

/-- Modelled from the spec: `apply_X_at_end` on qubit `q` flips the sign of
stabilizer row `q` (`X Z X = -Z`). -/
def CliffTableau.apply_X_at_end (t : CliffTableau) (q : Nat) : CliffTableau :=
  { t with zpauli_phase := fun r => if r == q then !t.zpauli_phase r else t.zpauli_phase r }

/-- Modelled from the spec: `apply_Z_at_end` on qubit `q` flips the sign of
destabilizer row `q` (`Z X Z = -X`). -/
def CliffTableau.apply_Z_at_end (t : CliffTableau) (q : Nat) : CliffTableau :=
  { t with xpauli_phase := fun r => if r == q then !t.xpauli_phase r else t.xpauli_phase r }

/-- Modelled from the spec: `apply_CX_at_end` with target `a`, control `b`
(same operand convention as the front application): destabilizer row `b`
absorbs destabilizer row `a`, stabilizer row `a` absorbs stabilizer row
`b`, with product sign bookkeeping. -/
def CliffTableau.apply_CX_at_end (t : CliffTableau) (a b : Nat) : CliffTableau :=
  { t with
    xpauli_x := fun r j => if r == b then t.xpauli_x r j ^^ t.xpauli_x a j else t.xpauli_x r j
    xpauli_z := fun r j => if r == b then t.xpauli_z r j ^^ t.xpauli_z a j else t.xpauli_z r j
    xpauli_phase := fun r =>
      if r == b then
        phMul (t.xpauli_phase b) (t.xpauli_phase a)
          (gRowSum t.size (t.xpauli_x b) (t.xpauli_z b) (t.xpauli_x a) (t.xpauli_z a)) 0
      else t.xpauli_phase r
    zpauli_x := fun r j => if r == a then t.zpauli_x r j ^^ t.zpauli_x b j else t.zpauli_x r j
    zpauli_z := fun r j => if r == a then t.zpauli_z r j ^^ t.zpauli_z b j else t.zpauli_z r j
    zpauli_phase := fun r =>
      if r == a then
        phMul (t.zpauli_phase a) (t.zpauli_phase b)
          (gRowSum t.size (t.zpauli_x a) (t.zpauli_z a) (t.zpauli_x b) (t.zpauli_z b)) 0
      else t.zpauli_phase r }

/-- Modelled from the spec: `apply_H_at_end` realized through the
`H ∝ S·V·S` composition the design fixes (§9): append `S`, then `V`,
then `S`. -/
def CliffTableau.apply_H_at_end (t : CliffTableau) (q : Nat) : CliffTableau :=
  ((t.apply_S_at_end q).apply_V_at_end q).apply_S_at_end q

/-- Builder-side error conditions (§7): an operand label absent from the
tableau's qubit mapping, or a gate kind outside the supported Clifford
set. -/
inductive CtErr where
  | unknownQubit
  | unsupportedOp
deriving DecidableEq

/-- Modelled from the spec: `apply_gate_at_end` dispatch (§4.2): the
supported kinds each update the tableau by their fixed rule; any other kind
fails with the unsupported-operation condition. -/
def CliffTableau.apply_gate_at_end (t : CliffTableau) (ty : OpType) (qbs : List Nat) :
    Except CtErr CliffTableau :=
  match ty, qbs with
  | .H, [q] => .ok (t.apply_H_at_end q)
  | .S, [q] => .ok (t.apply_S_at_end q)
  | .V, [q] => .ok (t.apply_V_at_end q)
  | .X, [q] => .ok (t.apply_X_at_end q)
  | .Z, [q] => .ok (t.apply_Z_at_end q)
  | .CX, [a, b] => .ok (t.apply_CX_at_end a b)
  | _, _ => .error .unsupportedOp

/-- Resolves operand labels through the tableau's label-to-index lookup
(the `tab.qubits_.left.at(...)` calls); an absent label is the
unknown-operand failure. -/
def resolveArgs (qs : List Nat) : List Nat → Except CtErr (List Nat)
  | [] => .ok []
  | a :: rest =>
    match qs.findIdx? (fun b => b == a) with
    | none => .error .unknownQubit
    | some i => (resolveArgs qs rest).map (fun l => i :: l)

/-- `circuit_to_tableau` (CliffTableauConverters.cpp, lines 21-31): start
from the identity tableau over the circuit's qubits and end-apply each
command in order, resolving its operands through the qubit mapping. -/
def circuit_to_tableau (circ : Circuit) : Except CtErr CliffTableau :=
  circ.cmds.foldlM
    (fun tab com => do
      let qbs ← resolveArgs tab.qubits com.args
      tab.apply_gate_at_end com.type qbs)
    (CliffTableau.init circ.qubits)

/-! ### GF(2) linear algebra collaborators -/

/-- XOR of column `src` into column `tgt`, restricted to the first `n`
rows (the `for (k < size)` loops of the C++ code). -/
def xorColInto (n : Nat) (M : Mat) (tgt src : Nat) : Mat :=
  fun r j => if r < n && j == tgt then M r j ^^ M r src else M r j

/-- Overwrite of column `i` (first `n` rows) with the bits of `src`. -/
def setColFrom (n : Nat) (M : Mat) (i : Nat) (src : Nat → Bool) : Mat :=
  fun r j => if r < n && j == i then src r else M r j

/-- Working state of the column-echelon reduction with recorded operations:
the matrix, the pivot assignment (pivot row to column), and the recorded
column operations `(target, source)` meaning "XOR column `source` into
column `target`". -/
structure GaussS where
  m : Mat
  lvc : List (Nat × Nat)
  ops : List (Nat × Nat)

/-- Modelled from the spec (§4.1 pivot rule): scan the rows of column `i`
top to bottom; the first row without an assigned pivot column becomes `i`'s
pivot; a row that already has a pivot column is eliminated by XORing that
pivot column into column `i`, recording the operation, and the scan
continues. -/
def gaussScan (n i : Nat) (g : GaussS) : List Nat → GaussS
  | [] => g
  | j :: rest =>
    if g.m j i then
      match g.lvc.lookup j with
      | none => { g with lvc := g.lvc ++ [(j, i)] }
      | some l =>
          gaussScan n i
            { g with m := xorColInto n g.m i l, ops := g.ops ++ [(i, l)] } rest
    else gaussScan n i g rest

/-- Modelled from the spec (§4.1): forward pass of the column-echelon
reduction, processing columns left to right. -/
def gaussForward (n : Nat) (M : Mat) : GaussS :=
  (List.range n).foldl (fun g i => gaussScan n i g (List.range n))
    { m := M, lvc := [], ops := [] }

/-- Back-elimination of pivot row `r` (pivot column `c`): every other
column holding a bit in row `r` absorbs column `c`, recording the
operations. -/
def clearRow (n r c : Nat) (g : Mat × List (Nat × Nat)) : Mat × List (Nat × Nat) :=
  (List.range n).foldl
    (fun p j =>
      if j != c && p.1 r j then (xorColInto n p.1 j c, p.2 ++ [(j, c)]) else p)
    g

/-- Back-elimination pass over pivot rows, bottom-most row first. -/
def gaussBackward (n : Nat) (g : GaussS) : Mat × List (Nat × Nat) :=
  (List.range n).foldr
    (fun r p =>
      match g.lvc.lookup r with
      | none => p
      | some c => clearRow n r c p)
    (g.m, g.ops)

/-- Three recorded column XORs realizing a swap of columns `i` and `j`. -/
def swapOps (n i j : Nat) (p : Mat × List (Nat × Nat)) : Mat × List (Nat × Nat) :=
  let m1 := xorColInto n p.1 i j
  let m2 := xorColInto n m1 j i
  (xorColInto n m2 i j, p.2 ++ [(i, j), (j, i), (i, j)])

/-- Final pass: place each pivot column on the diagonal by recorded column
swaps, so that a full-rank input is reduced to the identity. -/
def gaussDiag (n : Nat) (g : Mat × List (Nat × Nat)) : Mat × List (Nat × Nat) :=
  (List.range n).foldl
    (fun p i =>
      if p.1 i i then p
      else
        match (List.range n).find? (fun j => p.1 i j) with
        | none => p
        | some j => swapOps n i j p)
    g

/-- Modelled from the spec (§4.1): `gaussian_elimination_col_ops` returns
an ordered list of column operations `(target, source)` whose forward
replay brings the input to column-echelon form, the identity when the input
has full rank.  Declared in the repository's matrix-analysis collaborator,
outside this translation unit. -/
def gaussian_elimination_col_ops (n : Nat) (M : Mat) : List (Nat × Nat) :=
  (gaussDiag n (gaussBackward n (gaussForward n M))).2

/-- XOR-parity of a list of bits. -/
def xorParity (l : List Bool) : Bool :=
  l.foldl (fun s x => Bool.xor s x) false

/-- GF(2) dot product of two bit lists (truncated to the shorter one). -/
def dotBits (a b : List Bool) : Bool :=
  xorParity (List.zipWith (fun x y => x && y) a b)

/-- Modelled from the spec (§4.1 binary LLT): row `i` of the unit
lower-triangular factor `M`, built left to right from the strictly earlier
rows, solving `⟨m_i, m_j⟩ = D_ij` for `j < i`. -/
def lltRow (n : Nat) (D : Mat) (i : Nat) (prev : List (List Bool)) : List Bool :=
  (List.range n).foldl
    (fun cur j =>
      cur ++ [if j < i then D i j ^^ dotBits cur (prev.getD j []) else j == i])
    []

/-- Modelled from the spec (§4.1 binary LLT): all rows of the factor `M`. -/
def lltRows (n : Nat) (D : Mat) : List (List Bool) :=
  (List.range n).foldl (fun prev i => prev ++ [lltRow n D i prev]) []

/-- Modelled from the spec (§4.1): `binary_LLT_decomposition` returns an
invertible `M` (here unit lower-triangular) and a diagonal matrix `diag`
with `D + diag = M·M^T` over GF(2) for symmetric `D`.  Declared in the
repository's matrix-analysis collaborator, outside this translation
unit. -/
def binary_LLT_decomposition (n : Nat) (D : Mat) : Mat × Mat :=
  let rows := lltRows n D
  ( fun i j => (rows.getD i []).getD j false,
    fun i j =>
      if i == j && i < n then D i i ^^ !xorParity ((rows.getD i []).take i)
      else false )

/-! ### The synthesizer -/

/-- Trace events of one synthesis run: a gate emission into the output
circuit, or a front application to the working tableau. -/
inductive Event where
  | emit (o : Op)
  | appS (q : Nat)
  | appV (q : Nat)
  | appCX (a b : Nat)
deriving DecidableEq

/-- Synthesis context: the caller's tableau (`orig`, the reference passed
in), the owned working copy (`work`, the `tabl` local), the gate sequence
emitted so far, and the event trace. -/
structure SynthS where
  orig : CliffTableau
  work : CliffTableau
  gates : List Op
  events : List Event

/-- Append one gate to the output circuit (`c.add_op`). -/
def SynthS.emit (s : SynthS) (o : Op) : SynthS :=
  { s with gates := s.gates ++ [o], events := s.events ++ [.emit o] }

/-- Front-apply `S` to the working copy. -/
def SynthS.appS (s : SynthS) (q : Nat) : SynthS :=
  { s with work := s.work.apply_S_at_front q, events := s.events ++ [.appS q] }

/-- Front-apply `V` to the working copy. -/
def SynthS.appV (s : SynthS) (q : Nat) : SynthS :=
  { s with work := s.work.apply_V_at_front q, events := s.events ++ [.appV q] }

/-- Front-apply `CX` to the working copy. -/
def SynthS.appCX (s : SynthS) (a b : Nat) : SynthS :=
  { s with work := s.work.apply_CX_at_front a b, events := s.events ++ [.appCX a b] }

/-- Step-1 emission block: a `V` gate followed by three front `V`s
(lines 66-69). -/
def emitV3 (s : SynthS) (q : Nat) : SynthS :=
  (((s.emit ⟨.V, [q]⟩).appV q).appV q).appV q

/-- `S` emission block: an `S` gate followed by three front `S`s
(lines 109-112, 141-144, 180-183, 210-213). -/
def emitS3 (s : SynthS) (q : Nat) : SynthS :=
  (((s.emit ⟨.S, [q]⟩).appS q).appS q).appS q

/-- `H` emission block: an `H` gate followed by front `S`, `V`, `S`
(lines 165-168). -/
def emitH (s : SynthS) (q : Nat) : SynthS :=
  (((s.emit ⟨.H, [q]⟩).appS q).appV q).appS q

/-- `CX` emission block: a `CX` gate followed by one front `CX` on the same
pair (lines 95-96, 127-128, 155-156, 197-198, 223-224). -/
def emitCX (s : SynthS) (a b : Nat) : SynthS :=
  (s.emit ⟨.CX, [a, b]⟩).appCX a b

/-- `Z` correction block: a `Z` gate followed by two front `S`s
(lines 232-234). -/
def emitZ2 (s : SynthS) (q : Nat) : SynthS :=
  ((s.emit ⟨.Z, [q]⟩).appS q).appS q

/-- `X` correction block: an `X` gate followed by two front `V`s
(lines 237-239). -/
def emitX2 (s : SynthS) (q : Nat) : SynthS :=
  ((s.emit ⟨.X, [q]⟩).appV q).appV q

/-- The step-1 working state: the scratch echelon matrix, the pivot
assignment `leading_val_to_col`, and the synthesis context. -/
structure Step1S where
  ech : Mat
  lvc : List (Nat × Nat)
  s : SynthS

/-- The error message of the synthesizer's only `throw` (line 85). -/
def stabErrMsg : String := "Stabilisers are not mutually independent"

/-- Step-1 row scan of column `i` (lines 51-63 and 71-83): first unpivoted
row holding a bit becomes the pivot (insert and break); pivoted rows are
eliminated by XORing their pivot column into column `i`. -/
def scanRows (n i : Nat) (ech : Mat) (lvc : List (Nat × Nat)) :
    List Nat → Mat × List (Nat × Nat)
  | [] => (ech, lvc)
  | j :: rest =>
    if ech j i then
      match lvc.lookup j with
      | none => (ech, lvc ++ [(j, i)])
      | some l => scanRows n i (xorColInto n ech i l) lvc rest
    else scanRows n i ech lvc rest

/-- One iteration of the step-1 column loop (lines 50-86): scan the column;
if it is dependent, emit a `V` block, refresh the column from `zpauli_z`,
and rescan; if it is still dependent, fail. -/
def step1Col (n i : Nat) (st : Step1S) : Except (String × Step1S) Step1S :=
  let p1 := scanRows n i st.ech st.lvc (List.range n)
  if p1.2.length > i then .ok { st with ech := p1.1, lvc := p1.2 }
  else
    let s1 := emitV3 st.s i
    let ech2 := setColFrom n p1.1 i (fun r => s1.work.zpauli_z r i)
    let p2 := scanRows n i ech2 p1.2 (List.range n)
    if p2.2.length == i then .error (stabErrMsg, { ech := p2.1, lvc := p2.2, s := s1 })
    else .ok { ech := p2.1, lvc := p2.2, s := s1 }

/-- Step 1 (lines 45-86): make `zpauli_x` have full column rank, using `V`
blocks where a column is dependent. -/
def runStep1 (n : Nat) (s : SynthS) : Except (String × Step1S) Step1S :=
  (List.range n).foldlM (fun st i => step1Col n i st)
    { ech := s.work.zpauli_x, lvc := [], s := s }

/-- Forward replay of recorded column operations as `CX` blocks
(lines 93-97, 153-157, 221-225). -/
def replayCX (s : SynthS) : List (Nat × Nat) → SynthS
  | [] => s
  | (a, b) :: rest => replayCX (emitCX s a b) rest

/-- Reverse-iterator replay of recorded column operations as `CX` blocks
(lines 124-129, 194-199): the last recorded operation is processed
first. -/
def replayCXRev (s : SynthS) : List (Nat × Nat) → SynthS
  | [] => s
  | (a, b) :: rest => emitCX (replayCXRev s rest) a b

/-- Step 2 (lines 88-97): Gaussian elimination of `zpauli_x`, replayed
forward. -/
def step2 (n : Nat) (s : SynthS) : SynthS :=
  replayCX s (gaussian_elimination_col_ops n s.work.zpauli_x)

/-- Step 3 (lines 99-114): `S` blocks on every qubit flagged by the
diagonal of the binary LLT of `zpauli_z`. -/
def step3S (n : Nat) (s : SynthS) : SynthS :=
  (List.range n).foldl
    (fun s2 i => if (binary_LLT_decomposition n s.work.zpauli_z).2 i i then emitS3 s2 i else s2) s

/-- Steps 3 and 4 (lines 99-129): the `S` blocks of step 3, then the
elimination operations of the LLT factor, replayed in reverse. -/
def step34 (n : Nat) (s : SynthS) : SynthS :=
  replayCXRev (step3S n s)
    (gaussian_elimination_col_ops n (binary_LLT_decomposition n s.work.zpauli_z).1)

/-- Step 5 (lines 131-145): an `S` block on every qubit. -/
def step5 (n : Nat) (s : SynthS) : SynthS :=
  (List.range n).foldl (fun s i => emitS3 s i) s

/-- Step 6 (lines 147-157): Gaussian elimination of `zpauli_x`, replayed
forward. -/
def step6 (n : Nat) (s : SynthS) : SynthS :=
  replayCX s (gaussian_elimination_col_ops n s.work.zpauli_x)

/-- Step 7 (lines 159-169): an `H` block on every qubit. -/
def step7 (n : Nat) (s : SynthS) : SynthS :=
  (List.range n).foldl (fun s i => emitH s i) s

/-- Step 8 (lines 171-185): `S` blocks on every qubit flagged by the
diagonal of the binary LLT of `xpauli_z`. -/
def step8S (n : Nat) (s : SynthS) : SynthS :=
  (List.range n).foldl
    (fun s2 i => if (binary_LLT_decomposition n s.work.xpauli_z).2 i i then emitS3 s2 i else s2) s

/-- Steps 8 and 9 (lines 171-199): the `S` blocks of step 8, then the
elimination operations of the LLT factor, replayed in reverse. -/
def step89 (n : Nat) (s : SynthS) : SynthS :=
  replayCXRev (step8S n s)
    (gaussian_elimination_col_ops n (binary_LLT_decomposition n s.work.xpauli_z).1)

/-- Step 10 (lines 201-214): an `S` block on every qubit. -/
def step10 (n : Nat) (s : SynthS) : SynthS :=
  (List.range n).foldl (fun s i => emitS3 s i) s

/-- Step 11 (lines 216-225): Gaussian elimination of `xpauli_x`, replayed
forward. -/
def step11 (n : Nat) (s : SynthS) : SynthS :=
  replayCX s (gaussian_elimination_col_ops n s.work.xpauli_x)

/-- One iteration of the delayed correction loop (lines 230-241): a `Z`
block if qubit `i`'s destabilizer phase bit is set, then an `X` block if
its stabilizer phase bit is set. -/
def delayedBody (s : SynthS) (i : Nat) : SynthS :=
  let s1 := if s.work.xpauli_phase i then emitZ2 s i else s
  if s1.work.zpauli_phase i then emitX2 s1 i else s1

/-- Delayed correction pass (lines 227-241). -/
def delayedStep (n : Nat) (s : SynthS) : SynthS :=
  (List.range n).foldl delayedBody s

/-- Steps 2 through 11 and the delayed corrections, in order. -/
def stepsAfter1 (n : Nat) (s : SynthS) : SynthS :=
  delayedStep n (step11 n (step10 n (step89 n (step7 n (step6 n
    (step5 n (step34 n (step2 n s))))))))

/-- The full synthesis run on the working copy: the step-1 error (if any)
plus the final synthesis context (on failure, the context at the throw
point; no circuit is produced from it). -/
def synthRun (tab : CliffTableau) : Option String × SynthS :=
  let n := tab.size
  let s0 : SynthS := { orig := tab, work := tab, gates := [], events := [] }
  match runStep1 n s0 with
  | .error (e, st) => (some e, st.s)
  | .ok st => (none, stepsAfter1 n st.s)

/-- Qubit relabeling (lines 243-252): map each dense index back to its
original label, in index order. -/
def renameCircuit (qs : List Nat) (gates : List Op) : Circuit :=
  { qubits := qs
    cmds := gates.map (fun o => { o with args := o.args.map (fun i => qs.getD i 0) }) }

/-- `tableau_to_circuit` (CliffTableauConverters.cpp, lines 33-255). -/
def tableau_to_circuit (tab : CliffTableau) : Except String Circuit :=
  match synthRun tab with
  | (some e, _) => .error e
  | (none, s) => .ok (renameCircuit tab.qubits s.gates)

/-- The synthesized gate sequence over dense indices (`none` on
failure). -/
def synthGates (tab : CliffTableau) : Option (List Op) :=
  match synthRun tab with
  | (some _, _) => none
  | (none, s) => some s.gates

/-! ### Emission blocks

Every gate the synthesizer emits is produced by one of six fixed
emission/front-application blocks.  The abstract `Block` type names them;
`Block.flat` is the exact event shape of each block in the trace. -/

/-- The six emission blocks of the synthesizer. -/
inductive Block where
  | bV (q : Nat)
  | bS (q : Nat)
  | bH (q : Nat)
  | bCX (a b : Nat)
  | bZ (q : Nat)
  | bX (q : Nat)
deriving DecidableEq

/-- The gate a block emits. -/
def Block.gate : Block → Op
  | .bV q => ⟨.V, [q]⟩
  | .bS q => ⟨.S, [q]⟩
  | .bH q => ⟨.H, [q]⟩
  | .bCX a b => ⟨.CX, [a, b]⟩
  | .bZ q => ⟨.Z, [q]⟩
  | .bX q => ⟨.X, [q]⟩

/-- The exact event sequence of a block: the emission followed by its
paired front applications. -/
def Block.flat : Block → List Event
  | .bV q => [.emit ⟨.V, [q]⟩, .appV q, .appV q, .appV q]
  | .bS q => [.emit ⟨.S, [q]⟩, .appS q, .appS q, .appS q]
  | .bH q => [.emit ⟨.H, [q]⟩, .appS q, .appV q, .appS q]
  | .bCX a b => [.emit ⟨.CX, [a, b]⟩, .appCX a b]
  | .bZ q => [.emit ⟨.Z, [q]⟩, .appS q, .appS q]
  | .bX q => [.emit ⟨.X, [q]⟩, .appV q, .appV q]

/-- Concatenated event trace of a block list. -/
def blocksFlat (bs : List Block) : List Event := (bs.map Block.flat).flatten

theorem blocksFlat_append (a b : List Block) :
    blocksFlat (a ++ b) = blocksFlat a ++ blocksFlat b := by
  simp [blocksFlat]

/-- A synthesis-context transformer extends the context by whole emission
blocks: the caller's tableau is untouched and the gate list and event trace
grow by the gates and flattened events of some block list. -/
def BlockExt (f : SynthS → SynthS) : Prop :=
  ∀ s : SynthS, ∃ bs : List Block,
    (f s).orig = s.orig ∧
    (f s).gates = s.gates ++ bs.map Block.gate ∧
    (f s).events = s.events ++ blocksFlat bs

theorem BlockExt.id : BlockExt (fun s => s) :=
  fun s => ⟨[], rfl, by simp, by simp [blocksFlat]⟩

theorem BlockExt.comp {f g : SynthS → SynthS} (hf : BlockExt f) (hg : BlockExt g) :
    BlockExt (fun s => g (f s)) := by
  intro s
  obtain ⟨bs1, h1, h2, h3⟩ := hf s
  obtain ⟨bs2, g1, g2, g3⟩ := hg (f s)
  refine ⟨bs1 ++ bs2, by rw [g1, h1], ?_, ?_⟩
  · rw [g2, h2]; simp
  · rw [g3, h3]; simp [blocksFlat_append]

theorem BlockExt.branch {f g : SynthS → SynthS} (hf : BlockExt f) (hg : BlockExt g)
    (c : SynthS → Bool) : BlockExt (fun s => if c s then f s else g s) := by
  intro s
  cases hc : c s
  · simpa [hc] using hg s
  · simpa [hc] using hf s

theorem BlockExt.foldl {α : Type} (f : SynthS → α → SynthS)
    (h : ∀ a, BlockExt (fun s => f s a)) :
    ∀ l : List α, BlockExt (fun s => l.foldl f s) := by
  intro l
  induction l with
  | nil => simpa using BlockExt.id
  | cons a l ih => simpa [List.foldl] using BlockExt.comp (h a) ih

theorem emitV3_ext (q : Nat) : BlockExt (fun s => emitV3 s q) := by
  intro s
  exact ⟨[.bV q], by simp [emitV3, SynthS.emit, SynthS.appV],
    by simp [emitV3, SynthS.emit, SynthS.appV, Block.gate],
    by simp [emitV3, SynthS.emit, SynthS.appV, blocksFlat, Block.flat]⟩

theorem emitS3_ext (q : Nat) : BlockExt (fun s => emitS3 s q) := by
  intro s
  exact ⟨[.bS q], by simp [emitS3, SynthS.emit, SynthS.appS],
    by simp [emitS3, SynthS.emit, SynthS.appS, Block.gate],
    by simp [emitS3, SynthS.emit, SynthS.appS, blocksFlat, Block.flat]⟩

theorem emitH_ext (q : Nat) : BlockExt (fun s => emitH s q) := by
  intro s
  exact ⟨[.bH q], by simp [emitH, SynthS.emit, SynthS.appS, SynthS.appV],
    by simp [emitH, SynthS.emit, SynthS.appS, SynthS.appV, Block.gate],
    by simp [emitH, SynthS.emit, SynthS.appS, SynthS.appV, blocksFlat, Block.flat]⟩

theorem emitCX_ext (a b : Nat) : BlockExt (fun s => emitCX s a b) := by
  intro s
  exact ⟨[.bCX a b], by simp [emitCX, SynthS.emit, SynthS.appCX],
    by simp [emitCX, SynthS.emit, SynthS.appCX, Block.gate],
    by simp [emitCX, SynthS.emit, SynthS.appCX, blocksFlat, Block.flat]⟩

theorem emitZ2_ext (q : Nat) : BlockExt (fun s => emitZ2 s q) := by
  intro s
  exact ⟨[.bZ q], by simp [emitZ2, SynthS.emit, SynthS.appS],
    by simp [emitZ2, SynthS.emit, SynthS.appS, Block.gate],
    by simp [emitZ2, SynthS.emit, SynthS.appS, blocksFlat, Block.flat]⟩

theorem emitX2_ext (q : Nat) : BlockExt (fun s => emitX2 s q) := by
  intro s
  exact ⟨[.bX q], by simp [emitX2, SynthS.emit, SynthS.appV],
    by simp [emitX2, SynthS.emit, SynthS.appV, Block.gate],
    by simp [emitX2, SynthS.emit, SynthS.appV, blocksFlat, Block.flat]⟩

theorem replayCX_ext (l : List (Nat × Nat)) : BlockExt (fun s => replayCX s l) := by
  induction l with
  | nil => simpa [replayCX] using BlockExt.id
  | cons p l ih =>
      simpa [replayCX] using BlockExt.comp (emitCX_ext p.1 p.2) ih

theorem replayCXRev_ext (l : List (Nat × Nat)) : BlockExt (fun s => replayCXRev s l) := by
  induction l with
  | nil => simpa [replayCXRev] using BlockExt.id
  | cons p l ih =>
      simpa [replayCXRev] using BlockExt.comp ih (emitCX_ext p.1 p.2)

theorem step2_ext (n : Nat) : BlockExt (step2 n) := by
  intro s
  simpa [step2] using replayCX_ext (gaussian_elimination_col_ops n s.work.zpauli_x) s

theorem step3S_ext (n : Nat) : BlockExt (step3S n) := by
  intro s
  exact BlockExt.foldl _ (fun i => BlockExt.branch (emitS3_ext i) BlockExt.id _)
    (List.range n) s

theorem step8S_ext (n : Nat) : BlockExt (step8S n) := by
  intro s
  exact BlockExt.foldl _ (fun i => BlockExt.branch (emitS3_ext i) BlockExt.id _)
    (List.range n) s

theorem step34_ext (n : Nat) : BlockExt (step34 n) := by
  intro s
  obtain ⟨bs1, a1, a2, a3⟩ := step3S_ext n s
  obtain ⟨bs2, b1, b2, b3⟩ := replayCXRev_ext
    (gaussian_elimination_col_ops n (binary_LLT_decomposition n s.work.zpauli_z).1)
    (step3S n s)
  refine ⟨bs1 ++ bs2, ?_, ?_, ?_⟩ <;> simp only [step34]
  · rw [b1, a1]
  · rw [b2, a2]; simp
  · rw [b3, a3]; simp [blocksFlat_append]

theorem step89_ext (n : Nat) : BlockExt (step89 n) := by
  intro s
  obtain ⟨bs1, a1, a2, a3⟩ := step8S_ext n s
  obtain ⟨bs2, b1, b2, b3⟩ := replayCXRev_ext
    (gaussian_elimination_col_ops n (binary_LLT_decomposition n s.work.xpauli_z).1)
    (step8S n s)
  refine ⟨bs1 ++ bs2, ?_, ?_, ?_⟩ <;> simp only [step89]
  · rw [b1, a1]
  · rw [b2, a2]; simp
  · rw [b3, a3]; simp [blocksFlat_append]

theorem step5_ext (n : Nat) : BlockExt (step5 n) := by
  simpa [step5] using BlockExt.foldl (fun s i => emitS3 s i) emitS3_ext (List.range n)

theorem step6_ext (n : Nat) : BlockExt (step6 n) := by
  intro s
  simpa [step6] using replayCX_ext (gaussian_elimination_col_ops n s.work.zpauli_x) s

theorem step7_ext (n : Nat) : BlockExt (step7 n) := by
  simpa [step7] using BlockExt.foldl (fun s i => emitH s i) emitH_ext (List.range n)

theorem step10_ext (n : Nat) : BlockExt (step10 n) := by
  simpa [step10] using BlockExt.foldl (fun s i => emitS3 s i) emitS3_ext (List.range n)

theorem step11_ext (n : Nat) : BlockExt (step11 n) := by
  intro s
  simpa [step11] using replayCX_ext (gaussian_elimination_col_ops n s.work.xpauli_x) s

theorem delayedStep_ext (n : Nat) : BlockExt (delayedStep n) := by
  have hbody : ∀ i : Nat, BlockExt (fun s => delayedBody s i) := by
    intro i
    have h1 : BlockExt (fun s => if s.work.xpauli_phase i then emitZ2 s i else s) :=
      BlockExt.branch (emitZ2_ext i) BlockExt.id _
    have h2 : BlockExt (fun s => if s.work.zpauli_phase i then emitX2 s i else s) :=
      BlockExt.branch (emitX2_ext i) BlockExt.id _
    simpa [delayedBody] using BlockExt.comp h1 h2
  simpa [delayedStep] using BlockExt.foldl _ hbody (List.range n)

theorem stepsAfter1_ext (n : Nat) : BlockExt (stepsAfter1 n) := by
  have h :=
    BlockExt.comp (step2_ext n) (BlockExt.comp (step34_ext n) (BlockExt.comp (step5_ext n)
      (BlockExt.comp (step6_ext n) (BlockExt.comp (step7_ext n) (BlockExt.comp (step89_ext n)
        (BlockExt.comp (step10_ext n) (BlockExt.comp (step11_ext n) (delayedStep_ext n))))))))
  simpa [stepsAfter1] using h

/-- The synthesis context carried by a step-1 outcome, error or not. -/
def step1OutS : Except (String × Step1S) Step1S → SynthS
  | .ok st => st.s
  | .error (_, st) => st.s

theorem step1Col_ext (n i : Nat) (st : Step1S) :
    ∃ bs : List Block,
      (step1OutS (step1Col n i st)).orig = st.s.orig ∧
      (step1OutS (step1Col n i st)).gates = st.s.gates ++ bs.map Block.gate ∧
      (step1OutS (step1Col n i st)).events = st.s.events ++ blocksFlat bs := by
  obtain ⟨bs, h1, h2, h3⟩ := emitV3_ext i st.s
  by_cases hc : (scanRows n i st.ech st.lvc (List.range n)).2.length > i
  · refine ⟨[], ?_, ?_, ?_⟩ <;> simp [step1Col, hc, step1OutS, blocksFlat]
  · by_cases hd :
        ((scanRows n i
            (setColFrom n (scanRows n i st.ech st.lvc (List.range n)).1 i
              (fun r => (emitV3 st.s i).work.zpauli_z r i))
            (scanRows n i st.ech st.lvc (List.range n)).2 (List.range n)).2.length == i) = true
    · exact ⟨bs, by simpa [step1Col, hc, hd, step1OutS] using h1,
        by simpa [step1Col, hc, hd, step1OutS] using h2,
        by simpa [step1Col, hc, hd, step1OutS] using h3⟩
    · exact ⟨bs, by simpa [step1Col, hc, hd, step1OutS] using h1,
        by simpa [step1Col, hc, hd, step1OutS] using h2,
        by simpa [step1Col, hc, hd, step1OutS] using h3⟩

theorem step1Fold_ext (n : Nat) (l : List Nat) :
    ∀ st : Step1S,
      ∃ bs : List Block,
        (step1OutS (l.foldlM (fun st i => step1Col n i st) st)).orig = st.s.orig ∧
        (step1OutS (l.foldlM (fun st i => step1Col n i st) st)).gates
          = st.s.gates ++ bs.map Block.gate ∧
        (step1OutS (l.foldlM (fun st i => step1Col n i st) st)).events
          = st.s.events ++ blocksFlat bs := by
  induction l with
  | nil =>
      intro st
      refine ⟨[], rfl, ?_, ?_⟩
      · show st.s.gates = st.s.gates ++ List.map Block.gate []
        simp
      · show st.s.events = st.s.events ++ blocksFlat []
        simp [blocksFlat]
  | cons i l ih =>
      intro st
      obtain ⟨bs1, h1, h2, h3⟩ := step1Col_ext n i st
      rw [List.foldlM_cons]
      cases hc : step1Col n i st with
      | error e =>
          obtain ⟨msg, ste⟩ := e
          refine ⟨bs1, ?_, ?_, ?_⟩
          · show ste.s.orig = st.s.orig
            simpa [hc, step1OutS] using h1
          · show ste.s.gates = st.s.gates ++ bs1.map Block.gate
            simpa [hc, step1OutS] using h2
          · show ste.s.events = st.s.events ++ blocksFlat bs1
            simpa [hc, step1OutS] using h3
      | ok st1 =>
          obtain ⟨bs2, g1, g2, g3⟩ := ih st1
          refine ⟨bs1 ++ bs2, ?_, ?_, ?_⟩
          · show (step1OutS (l.foldlM (fun st i => step1Col n i st) st1)).orig = st.s.orig
            rw [g1]; simpa [hc, step1OutS] using h1
          · show (step1OutS (l.foldlM (fun st i => step1Col n i st) st1)).gates
                = st.s.gates ++ (bs1 ++ bs2).map Block.gate
            rw [g2]
            have h2' : st1.s.gates = st.s.gates ++ bs1.map Block.gate := by
              simpa [hc, step1OutS] using h2
            rw [h2']; simp
          · show (step1OutS (l.foldlM (fun st i => step1Col n i st) st1)).events
                = st.s.events ++ blocksFlat (bs1 ++ bs2)
            rw [g3]
            have h3' : st1.s.events = st.s.events ++ blocksFlat bs1 := by
              simpa [hc, step1OutS] using h3
            rw [h3']; simp [blocksFlat_append]

/-- Shared structural description of a full synthesis run: whatever the
input tableau, the caller's tableau is preserved and the gate list and
event trace are exactly the concatenation of complete emission blocks. -/
theorem synthRun_blocks (tab : CliffTableau) :
    ∃ bs : List Block,
      (synthRun tab).2.orig = tab ∧
      (synthRun tab).2.gates = bs.map Block.gate ∧
      (synthRun tab).2.events = blocksFlat bs := by
  obtain ⟨bs1, h1, h2, h3⟩ := step1Fold_ext tab.size (List.range tab.size)
    { ech := tab.zpauli_x, lvc := [],
      s := { orig := tab, work := tab, gates := [], events := [] } }
  have hrun : synthRun tab =
      (match (List.range tab.size).foldlM (fun st i => step1Col tab.size i st)
          { ech := tab.zpauli_x, lvc := [],
            s := { orig := tab, work := tab, gates := [], events := [] } } with
       | .error (e, st) => (some e, st.s)
       | .ok st => (none, stepsAfter1 tab.size st.s)) := rfl
  rw [hrun]
  cases hc : (List.range tab.size).foldlM (fun st i => step1Col tab.size i st)
      { ech := tab.zpauli_x, lvc := [],
        s := { orig := tab, work := tab, gates := [], events := [] } } with
  | error e =>
      obtain ⟨msg, st⟩ := e
      refine ⟨bs1, ?_, ?_, ?_⟩
      · show st.s.orig = tab
        simpa [hc, step1OutS] using h1
      · show st.s.gates = bs1.map Block.gate
        simpa [hc, step1OutS] using h2
      · show st.s.events = blocksFlat bs1
        simpa [hc, step1OutS] using h3
  | ok st =>
      obtain ⟨bs2, g1, g2, g3⟩ := stepsAfter1_ext tab.size st.s
      refine ⟨bs1 ++ bs2, ?_, ?_, ?_⟩
      · show (stepsAfter1 tab.size st.s).orig = tab
        rw [g1]; simpa [hc, step1OutS] using h1
      · show (stepsAfter1 tab.size st.s).gates = (bs1 ++ bs2).map Block.gate
        rw [g2]
        have h2' : st.s.gates = [] ++ bs1.map Block.gate := by
          simpa [hc, step1OutS] using h2
        rw [h2']; simp
      · show (stepsAfter1 tab.size st.s).events = blocksFlat (bs1 ++ bs2)
        rw [g3]
        have h3' : st.s.events = [] ++ blocksFlat bs1 := by
          simpa [hc, step1OutS] using h3
        rw [h3']; simp [blocksFlat_append]

/-! ### Claims about the synthesized gate vocabulary and trace shape -/

/-- The output vocabulary the spec claims: {H, S, CX, X, Z}. -/
def gateKindOkSpec (o : Op) : Bool :=
  o.type == .H || o.type == .S || o.type == .CX || o.type == .X || o.type == .Z

/-- The vocabulary the synthesizer can actually emit: {H, S, CX, X, Z, V}. -/
def gateKindOkAmended (o : Op) : Bool :=
  gateKindOkSpec o || o.type == .V

/-- Check of the spec vocabulary over a synthesis result. -/
def circuitKindsOkSpec : Except String Circuit → Bool
  | .ok c => c.cmds.all gateKindOkSpec
  | .error _ => true

/-- Check of the amended vocabulary over a synthesis result. -/
def circuitKindsOkAmended : Except String Circuit → Bool
  | .ok c => c.cmds.all gateKindOkAmended
  | .error _ => true

theorem block_gate_kind (b : Block) : gateKindOkAmended (Block.gate b) = true := by
  cases b <;> rfl

instance : DecidableEq Circuit := fun a b =>
  decidable_of_iff (a.qubits = b.qubits ∧ a.cmds = b.cmds)
    (by cases a; cases b; simp)

instance {ε α : Type} [DecidableEq ε] [DecidableEq α] : DecidableEq (Except ε α) :=
  fun a b =>
  match a, b with
  | .ok x, .ok y => decidable_of_iff (x = y) (by simp)
  | .error x, .error y => decidable_of_iff (x = y) (by simp)
  | .ok _, .error _ => isFalse (by simp)
  | .error _, .ok _ => isFalse (by simp)

/-- C2 counterexample: on the one-qubit identity tableau the synthesizer
emits a `V` gate (step 1, line 66), so the synthesized circuit is not drawn
from the claimed vocabulary {H, S, CX, X, Z}. -/
theorem synth_output_vocabulary_spec_violation :
    circuitKindsOkSpec (tableau_to_circuit (CliffTableau.init [0])) = false := by
  decide

/-- C2 (amended): every circuit returned by `tableau_to_circuit` contains
only gate kinds from {H, S, CX, X, Z, V}; no further kind ever appears in
the synthesized output, for any input tableau. -/
theorem synth_output_vocabulary (tab : CliffTableau) :
    circuitKindsOkAmended (tableau_to_circuit tab) = true := by
  obtain ⟨bs, _, h2, _⟩ := synthRun_blocks tab
  unfold tableau_to_circuit
  cases hc : synthRun tab with
  | mk o s =>
      rw [hc] at h2
      cases o with
      | some e => rfl
      | none =>
          show (renameCircuit tab.qubits s.gates).cmds.all gateKindOkAmended = true
          rw [List.all_eq_true]
          intro o ho
          simp only [renameCircuit, List.mem_map] at ho
          obtain ⟨o1, ho1, rfl⟩ := ho
          rw [h2] at ho1
          simp only [List.mem_map] at ho1
          obtain ⟨b, _, rfl⟩ := ho1
          simpa using block_gate_kind b

/-- C3 counterexample: applied to the n=1 identity tableau,
`tableau_to_circuit` does not produce an empty gate sequence. -/
theorem synth_identity1_not_empty :
    (tableau_to_circuit (CliffTableau.init [0])).map Circuit.cmds ≠ .ok [] := by
  decide

/-- C3 (amended): the n=1 identity tableau synthesizes to the concrete
four-gate sequence `V, S, H, S` on its single qubit (steps 1, 5, 7 and 10
each emit one gate; all other steps emit none). -/
theorem synth_identity1_gates :
    tableau_to_circuit (CliffTableau.init [0]) =
      .ok ⟨[0], [⟨.V, [0]⟩, ⟨.S, [0]⟩, ⟨.H, [0]⟩, ⟨.S, [0]⟩]⟩ := by
  decide

/-- C6: `tableau_to_circuit` mutates only its owned working copy: after a
run, successful or failed, the caller's tableau slot of the synthesis
context still holds the input tableau unchanged — all four matrices, both
phase vectors, the size and the qubit index mapping. -/
theorem synth_preserves_caller_tableau (tab : CliffTableau) :
    (synthRun tab).2.orig = tab := by
  obtain ⟨_, h1, _, _⟩ := synthRun_blocks tab
  exact h1

/-- C10: the event trace of any synthesis run decomposes into complete
emission blocks — each emitted `S` comes with three front `S`s, each `V`
with three front `V`s, each `H` with front `S`,`V`,`S`, each `Z` with two
front `S`s, each `X` with two front `V`s and each `CX` with one front `CX`
on the same pair — and the emitted gate list is exactly the block gate
list, so no emission lacks its front applications and no front application
lacks its emission. -/
theorem synth_emission_pairing (tab : CliffTableau) :
    ∃ bs : List Block,
      (synthRun tab).2.gates = bs.map Block.gate ∧
      (synthRun tab).2.events = blocksFlat bs := by
  obtain ⟨bs, _, h2, h3⟩ := synthRun_blocks tab
  exact ⟨bs, h2, h3⟩

/-! ### Replay order of recorded column operations -/

theorem replayCX_append (s : SynthS) (l1 l2 : List (Nat × Nat)) :
    replayCX s (l1 ++ l2) = replayCX (replayCX s l1) l2 := by
  induction l1 generalizing s with
  | nil => rfl
  | cons p l ih => cases p; simp [replayCX, ih]

theorem replayCXRev_eq_reverse (s : SynthS) (l : List (Nat × Nat)) :
    replayCXRev s l = replayCX s l.reverse := by
  induction l generalizing s with
  | nil => rfl
  | cons p l ih =>
      cases p with
      | mk a b =>
          show emitCX (replayCXRev s l) a b = replayCX s ((a, b) :: l).reverse
          rw [List.reverse_cons, replayCX_append, ih]
          rfl

/-- C8: the column-operation lists recorded by Gaussian elimination of the
binary-LLT factors are replayed in reverse order in steps 4 and 9 (each
operation both emitted as a `CX` gate and front-applied), whereas steps 2,
6 and 11 replay their recorded operations in forward order. -/
theorem synth_replay_orders :
    (∀ (s : SynthS) (l : List (Nat × Nat)), replayCXRev s l = replayCX s l.reverse) ∧
    (∀ (n : Nat) (s : SynthS),
      step34 n s = replayCX (step3S n s)
        (gaussian_elimination_col_ops n (binary_LLT_decomposition n s.work.zpauli_z).1).reverse) ∧
    (∀ (n : Nat) (s : SynthS),
      step89 n s = replayCX (step8S n s)
        (gaussian_elimination_col_ops n (binary_LLT_decomposition n s.work.xpauli_z).1).reverse) ∧
    (∀ (n : Nat) (s : SynthS),
      step2 n s = replayCX s (gaussian_elimination_col_ops n s.work.zpauli_x)) ∧
    (∀ (n : Nat) (s : SynthS),
      step6 n s = replayCX s (gaussian_elimination_col_ops n s.work.zpauli_x)) ∧
    (∀ (n : Nat) (s : SynthS),
      step11 n s = replayCX s (gaussian_elimination_col_ops n s.work.xpauli_x)) := by
  refine ⟨replayCXRev_eq_reverse, ?_, ?_, fun n s => rfl, fun n s => rfl, fun n s => rfl⟩
  · intro n s
    rw [step34, replayCXRev_eq_reverse]
  · intro n s
    rw [step89, replayCXRev_eq_reverse]

/-! ### The delayed correction pass -/

/-- Two successive front `S` applications on the same qubit realize a
front `Z`: the matrices are restored and each row's sign flips by its `x`
bit at column `q`. -/
theorem S2_front (t : CliffTableau) (q : Nat) :
    (t.apply_S_at_front q).apply_S_at_front q =
      { t with
        xpauli_phase := fun r =>
          if r < t.size then t.xpauli_phase r ^^ t.xpauli_x r q else t.xpauli_phase r
        zpauli_phase := fun r =>
          if r < t.size then t.zpauli_phase r ^^ t.zpauli_x r q else t.zpauli_phase r } := by
  cases t with
  | mk size qubits xx xz xph zx zz zph =>
      simp only [CliffTableau.apply_S_at_front]
      congr 1
      · funext r j
        simp only [colZxorX]
        cases h : (decide (r < size) && (j == q)) <;>
          simp [h, Bool.xor_assoc]
      · funext r
        simp only [colPhaseS, colZxorX]
        by_cases hr : r < size
        · cases hx : xx r q <;> cases hz : xz r q <;> simp [hr, hx, hz]
        · simp [hr]
      · funext r j
        simp only [colZxorX]
        cases h : (decide (r < size) && (j == q)) <;>
          simp [h, Bool.xor_assoc]
      · funext r
        simp only [colPhaseS, colZxorX]
        by_cases hr : r < size
        · cases hx : zx r q <;> cases hz : zz r q <;> simp [hr, hx, hz]
        · simp [hr]

/-- Two successive front `V` applications on the same qubit realize a
front `X`: the matrices are restored and each row's sign flips by its `z`
bit at column `q`. -/
theorem V2_front (t : CliffTableau) (q : Nat) :
    (t.apply_V_at_front q).apply_V_at_front q =
      { t with
        xpauli_phase := fun r =>
          if r < t.size then t.xpauli_phase r ^^ t.xpauli_z r q else t.xpauli_phase r
        zpauli_phase := fun r =>
          if r < t.size then t.zpauli_phase r ^^ t.zpauli_z r q else t.zpauli_phase r } := by
  cases t with
  | mk size qubits xx xz xph zx zz zph =>
      simp only [CliffTableau.apply_V_at_front]
      congr 1
      · funext r j
        simp only [colXxorZ]
        cases h : (decide (r < size) && (j == q)) <;>
          simp [h, Bool.xor_assoc]
      · funext r
        simp only [colPhaseV, colXxorZ]
        by_cases hr : r < size
        · cases hx : xx r q <;> cases hz : xz r q <;> simp [hr, hx, hz]
        · simp [hr]
      · funext r j
        simp only [colXxorZ]
        cases h : (decide (r < size) && (j == q)) <;>
          simp [h, Bool.xor_assoc]
      · funext r
        simp only [colPhaseV, colXxorZ]
        by_cases hr : r < size
        · cases hx : zx r q <;> cases hz : zz r q <;> simp [hr, hx, hz]
        · simp [hr]

/-- Bounded check that the working tableau's four matrices are in the
canonical form `[[I,0],[0,I]]` that step 11 establishes. -/
def isCanonicalBlocks (n : Nat) (t : CliffTableau) : Bool :=
  (List.range n).all fun i => (List.range n).all fun j =>
    (t.xpauli_x i j == decide (i = j)) && (t.xpauli_z i j == false) &&
    (t.zpauli_x i j == false) && (t.zpauli_z i j == decide (i = j))

theorem canonical_entries {n : Nat} {t : CliffTableau}
    (h : isCanonicalBlocks n t = true) {i j : Nat} (hi : i < n) (hj : j < n) :
    t.xpauli_x i j = decide (i = j) ∧ t.xpauli_z i j = false ∧
    t.zpauli_x i j = false ∧ t.zpauli_z i j = decide (i = j) := by
  simp only [isCanonicalBlocks, List.all_eq_true, List.mem_range] at h
  have h2 := h i hi j hj
  simp only [Bool.and_eq_true, beq_iff_eq] at h2
  exact ⟨h2.1.1.1, h2.1.1.2, h2.1.2, h2.2⟩

/-- The correction gates the delayed pass owes qubit `i` in state `t`. -/
def delayedEmits (t : CliffTableau) (i : Nat) : List Op :=
  (if t.xpauli_phase i then [⟨.Z, [i]⟩] else []) ++
    (if t.zpauli_phase i then [⟨.X, [i]⟩] else [])

theorem delayedBody_step {n : Nat} {s : SynthS} {i : Nat}
    (hsize : s.work.size = n) (hcanon : isCanonicalBlocks n s.work = true) (hi : i < n) :
    (delayedBody s i).gates = s.gates ++ delayedEmits s.work i ∧
    (delayedBody s i).work.size = n ∧
    isCanonicalBlocks n (delayedBody s i).work = true ∧
    (∀ j, j < n → j ≠ i →
      (delayedBody s i).work.xpauli_phase j = s.work.xpauli_phase j ∧
      (delayedBody s i).work.zpauli_phase j = s.work.zpauli_phase j) := by
  have hzxii := (canonical_entries hcanon hi hi).2.2.1
  have hZwork : (emitZ2 s i).work
      = { s.work with
          xpauli_phase := fun r =>
            if r < s.work.size then s.work.xpauli_phase r ^^ s.work.xpauli_x r i
            else s.work.xpauli_phase r
          zpauli_phase := fun r =>
            if r < s.work.size then s.work.zpauli_phase r ^^ s.work.zpauli_x r i
            else s.work.zpauli_phase r } := S2_front s.work i
  have hXwork : (emitX2 s i).work
      = { s.work with
          xpauli_phase := fun r =>
            if r < s.work.size then s.work.xpauli_phase r ^^ s.work.xpauli_z r i
            else s.work.xpauli_phase r
          zpauli_phase := fun r =>
            if r < s.work.size then s.work.zpauli_phase r ^^ s.work.zpauli_z r i
            else s.work.zpauli_phase r } := V2_front s.work i
  have hZph : (emitZ2 s i).work.zpauli_phase i = s.work.zpauli_phase i := by
    rw [hZwork]
    simp [hsize, hi, hzxii]
  cases hxp : s.work.xpauli_phase i with
  | false =>
      cases hzp : s.work.zpauli_phase i with
      | false =>
          have hbody : delayedBody s i = s := by simp [delayedBody, hxp, hzp]
          rw [hbody]
          exact ⟨by simp [delayedEmits, hxp, hzp], hsize, hcanon, fun j _ _ => ⟨rfl, rfl⟩⟩
      | true =>
          have hbody : delayedBody s i = emitX2 s i := by simp [delayedBody, hxp, hzp]
          rw [hbody]
          refine ⟨by simp [delayedEmits, hxp, hzp, emitX2, SynthS.emit, SynthS.appV], ?_, ?_, ?_⟩
          · rw [hXwork]; simpa using hsize
          · rw [hXwork]
            simpa [isCanonicalBlocks] using hcanon
          · intro j hj hji
            have hxz := (canonical_entries hcanon hj hi).2.1
            have hzz := (canonical_entries hcanon hj hi).2.2.2
            rw [hXwork]
            constructor
            · simp [hsize, hj, hxz]
            · simp [hsize, hj, hzz, hji]
  | true =>
      cases hzp : s.work.zpauli_phase i with
      | false =>
          have hbody : delayedBody s i = emitZ2 s i := by
            simp [delayedBody, hxp, hZph, hzp]
          rw [hbody]
          refine ⟨by simp [delayedEmits, hxp, hzp, emitZ2, SynthS.emit, SynthS.appS], ?_, ?_, ?_⟩
          · rw [hZwork]; simpa using hsize
          · rw [hZwork]
            simpa [isCanonicalBlocks] using hcanon
          · intro j hj hji
            have hxx := (canonical_entries hcanon hj hi).1
            have hzx := (canonical_entries hcanon hj hi).2.2.1
            rw [hZwork]
            constructor
            · simp [hsize, hj, hxx, hji]
            · simp [hsize, hj, hzx]
      | true =>
          have hbody : delayedBody s i = emitX2 (emitZ2 s i) i := by
            simp [delayedBody, hxp, hZph, hzp]
          rw [hbody]
          have hsize1 : (emitZ2 s i).work.size = n := by rw [hZwork]; simpa using hsize
          have hXZwork : (emitX2 (emitZ2 s i) i).work
              = { (emitZ2 s i).work with
                  xpauli_phase := fun r =>
                    if r < (emitZ2 s i).work.size then
                      (emitZ2 s i).work.xpauli_phase r ^^ (emitZ2 s i).work.xpauli_z r i
                    else (emitZ2 s i).work.xpauli_phase r
                  zpauli_phase := fun r =>
                    if r < (emitZ2 s i).work.size then
                      (emitZ2 s i).work.zpauli_phase r ^^ (emitZ2 s i).work.zpauli_z r i
                    else (emitZ2 s i).work.zpauli_phase r } := V2_front (emitZ2 s i).work i
          refine ⟨?_, ?_, ?_, ?_⟩
          · simp [delayedEmits, hxp, hzp, emitZ2, emitX2, SynthS.emit, SynthS.appS, SynthS.appV]
          · rw [hXZwork]; simpa using hsize1
          · rw [hXZwork, hZwork]
            simpa [isCanonicalBlocks] using hcanon
          · intro j hj hji
            have hxx := (canonical_entries hcanon hj hi).1
            have hxz := (canonical_entries hcanon hj hi).2.1
            have hzx := (canonical_entries hcanon hj hi).2.2.1
            have hzz := (canonical_entries hcanon hj hi).2.2.2
            rw [hXZwork, hZwork]
            constructor
            · simp [hsize, hj, hxz, hxx, hji]
            · simp [hsize, hj, hzz, hzx, hji]

theorem delayedGo {n : Nat} (l : List Nat) :
    ∀ s : SynthS, s.work.size = n → isCanonicalBlocks n s.work = true →
      l.Nodup → (∀ i ∈ l, i < n) →
      (l.foldl delayedBody s).gates = s.gates ++ (l.map (delayedEmits s.work)).flatten := by
  induction l with
  | nil => intro s _ _ _ _; simp
  | cons i l ih =>
      intro s hsize hcanon hnodup hlt
      have hi : i < n := hlt i (List.mem_cons_self i l)
      obtain ⟨hg, hsz, hcn, hph⟩ := delayedBody_step hsize hcanon hi
      have hrest := ih (delayedBody s i) hsz hcn hnodup.of_cons
        (fun j hj => hlt j (List.mem_cons_of_mem i hj))
      have hmap : l.map (delayedEmits (delayedBody s i).work)
          = l.map (delayedEmits s.work) := by
        apply List.map_congr_left
        intro j hj
        have hji : j ≠ i := by
          intro h
          exact (List.nodup_cons.mp hnodup).1 (h ▸ hj)
        have hjn : j < n := hlt j (List.mem_cons_of_mem i hj)
        obtain ⟨hpx, hpz⟩ := hph j hjn hji
        simp [delayedEmits, hpx, hpz]
      rw [List.foldl_cons, hrest, hmap, hg]
      simp [delayedEmits]

/-- C9: run from the canonical `[[I,0],[0,I]]` working-tableau form that
step 11 establishes, the delayed-correction pass emits, per qubit `i` in
order, exactly one `Z` gate when the destabilizer phase bit of `i` is set
and exactly one `X` gate when the stabilizer phase bit of `i` is set, and
nothing for clear bits. -/
theorem delayed_correction_emissions (n : Nat) (s : SynthS)
    (hsize : s.work.size = n) (hcanon : isCanonicalBlocks n s.work = true) :
    (delayedStep n s).gates
      = s.gates ++ ((List.range n).map (delayedEmits s.work)).flatten := by
  have h := delayedGo (List.range n) s hsize hcanon (List.nodup_range n)
    (fun i hi => List.mem_range.mp hi)
  simpa [delayedStep] using h

/-- A concrete one-qubit synthesis context in canonical form with both
phase bits set. -/
def canonS1 : SynthS :=
  { orig := CliffTableau.init [0]
    work :=
      { size := 1
        qubits := [0]
        xpauli_x := fun i j => i == j
        xpauli_z := fun _ _ => false
        xpauli_phase := fun _ => true
        zpauli_x := fun _ _ => false
        zpauli_z := fun i j => i == j
        zpauli_phase := fun _ => true }
    gates := []
    events := [] }

/-- Witness for C9: on the concrete canonical one-qubit context with both
phase bits set, the delayed pass emits exactly `Z` then `X` on qubit 0. -/
theorem delayed_correction_emissions_witness :
    isCanonicalBlocks 1 canonS1.work = true ∧
    (delayedStep 1 canonS1).gates = [⟨.Z, [0]⟩, ⟨.X, [0]⟩] := by
  refine ⟨by decide, ?_⟩
  rw [delayed_correction_emissions 1 canonS1 rfl (by decide)]
  decide

/-! ### Builder error handling -/

/-- Whether `apply_gate_at_end` accepts a gate kind at a given operand
count. -/
def kindArityOk : OpType → Nat → Bool
  | .H, 1 => true
  | .S, 1 => true
  | .V, 1 => true
  | .X, 1 => true
  | .Z, 1 => true
  | .CX, 2 => true
  | _, _ => false

/-- A command the builder rejects: an operand label absent from the qubit
set, or a kind/arity outside the supported Clifford set. -/
def cmdBad (qs : List Nat) (o : Op) : Bool :=
  o.args.any (fun a => (qs.findIdx? (fun b => b == a)).isNone) ||
    !kindArityOk o.type o.args.length

/-- Total version of the supported-gate dispatch, used to express the
all-good fold. -/
def applyGateTotal (t : CliffTableau) (ty : OpType) (qbs : List Nat) : CliffTableau :=
  match ty, qbs with
  | .H, [q] => t.apply_H_at_end q
  | .S, [q] => t.apply_S_at_end q
  | .V, [q] => t.apply_V_at_end q
  | .X, [q] => t.apply_X_at_end q
  | .Z, [q] => t.apply_Z_at_end q
  | .CX, [a, b] => t.apply_CX_at_end a b
  | _, _ => t

/-- Total end application of one command: resolve operands, then apply. -/
def applyCmd (t : CliffTableau) (o : Op) : CliffTableau :=
  applyGateTotal t o.type
    (o.args.map (fun a => (t.qubits.findIdx? (fun b => b == a)).getD 0))

theorem resolveArgs_ok (qs : List Nat) (args : List Nat)
    (h : args.all (fun a => (qs.findIdx? (fun b => b == a)).isSome) = true) :
    resolveArgs qs args
      = .ok (args.map (fun a => (qs.findIdx? (fun b => b == a)).getD 0)) := by
  induction args with
  | nil => rfl
  | cons a rest ih =>
      simp only [List.all_cons, Bool.and_eq_true] at h
      obtain ⟨i, hi⟩ := Option.isSome_iff_exists.mp h.1
      simp [resolveArgs, hi, ih h.2, Except.map]

theorem resolveArgs_err (qs : List Nat) (args : List Nat)
    (h : args.any (fun a => (qs.findIdx? (fun b => b == a)).isNone) = true) :
    resolveArgs qs args = .error .unknownQubit := by
  induction args with
  | nil => simp at h
  | cons a rest ih =>
      cases hfa : qs.findIdx? (fun b => b == a) with
      | none => simp [resolveArgs, hfa]
      | some i =>
          simp only [List.any_cons, Bool.or_eq_true, hfa, Option.isNone_some] at h
          have hrest := h.resolve_left (by simp)
          simp [resolveArgs, hfa, ih hrest, Except.map]

theorem apply_gate_at_end_err (t : CliffTableau) (ty : OpType) (qbs : List Nat)
    (h : kindArityOk ty qbs.length = false) :
    t.apply_gate_at_end ty qbs = .error .unsupportedOp := by
  cases ty <;> rcases qbs with _ | ⟨a, _ | ⟨b, _ | ⟨c, rest⟩⟩⟩ <;>
    simp_all [kindArityOk, CliffTableau.apply_gate_at_end]

theorem apply_gate_at_end_ok (t : CliffTableau) (ty : OpType) (qbs : List Nat)
    (h : kindArityOk ty qbs.length = true) :
    t.apply_gate_at_end ty qbs = .ok (applyGateTotal t ty qbs) := by
  cases ty <;> rcases qbs with _ | ⟨a, _ | ⟨b, _ | ⟨c, rest⟩⟩⟩ <;>
    simp_all [kindArityOk, CliffTableau.apply_gate_at_end, applyGateTotal]

theorem applyGateTotal_qubits (t : CliffTableau) (ty : OpType) (qbs : List Nat) :
    (applyGateTotal t ty qbs).qubits = t.qubits := by
  cases ty <;> rcases qbs with _ | ⟨a, _ | ⟨b, _ | ⟨c, rest⟩⟩⟩ <;>
    rfl

/-- One step of the builder fold (resolution plus end application). -/
def builderStep (tab : CliffTableau) (com : Op) : Except CtErr CliffTableau := do
  let qbs ← resolveArgs tab.qubits com.args
  tab.apply_gate_at_end com.type qbs

theorem builderStep_ok {qs : List Nat} {t : CliffTableau} (ht : t.qubits = qs)
    {o : Op} (h : cmdBad qs o = false) :
    builderStep t o = .ok (applyCmd t o) := by
  simp only [cmdBad, Bool.or_eq_false_iff, Bool.not_eq_false] at h
  have hall : o.args.all (fun a => (t.qubits.findIdx? (fun b => b == a)).isSome) = true := by
    rw [ht]
    rw [List.all_eq_true]
    intro a ha
    have := (List.any_eq_false.mp h.1) a ha
    simpa [Option.isNone_iff_eq_none, Option.isSome_iff_ne_none] using this
  have hres := resolveArgs_ok t.qubits o.args hall
  have hlen : (o.args.map
      (fun a => (t.qubits.findIdx? (fun b => b == a)).getD 0)).length = o.args.length := by
    simp
  show (resolveArgs t.qubits o.args >>= fun qbs => t.apply_gate_at_end o.type qbs)
      = .ok (applyCmd t o)
  rw [hres]
  show t.apply_gate_at_end o.type
      (o.args.map (fun a => (t.qubits.findIdx? (fun b => b == a)).getD 0)) = _
  rw [apply_gate_at_end_ok _ _ _ (by rw [hlen]; simpa using h.2)]
  rfl

theorem builderStep_err {qs : List Nat} {t : CliffTableau} (ht : t.qubits = qs)
    {o : Op} (h : cmdBad qs o = true) :
    ∃ e, builderStep t o = .error e := by
  simp only [cmdBad, Bool.or_eq_true] at h
  cases hany : o.args.any (fun a => (t.qubits.findIdx? (fun b => b == a)).isNone) with
  | true =>
      refine ⟨.unknownQubit, ?_⟩
      show (resolveArgs t.qubits o.args >>= fun qbs => t.apply_gate_at_end o.type qbs)
          = .error .unknownQubit
      rw [resolveArgs_err t.qubits o.args hany]
      rfl
  | false =>
      have hbadk : kindArityOk o.type o.args.length = false := by
        rcases h with h | h
        · rw [ht] at hany; rw [hany] at h; exact absurd h (by simp)
        · simpa using h
      have hall : o.args.all (fun a => (t.qubits.findIdx? (fun b => b == a)).isSome) = true := by
        rw [List.all_eq_true]
        intro a ha
        have := (List.any_eq_false.mp hany) a ha
        simpa [Option.isNone_iff_eq_none, Option.isSome_iff_ne_none] using this
      refine ⟨.unsupportedOp, ?_⟩
      show (resolveArgs t.qubits o.args >>= fun qbs => t.apply_gate_at_end o.type qbs)
          = .error .unsupportedOp
      rw [resolveArgs_ok t.qubits o.args hall]
      show t.apply_gate_at_end o.type
          (o.args.map (fun a => (t.qubits.findIdx? (fun b => b == a)).getD 0)) = _
      exact apply_gate_at_end_err _ _ _ (by simpa using hbadk)

theorem applyCmd_qubits (t : CliffTableau) (o : Op) :
    (applyCmd t o).qubits = t.qubits := by
  simp [applyCmd, applyGateTotal_qubits]

theorem builder_go (qs : List Nat) (cmds : List Op) :
    ∀ t : CliffTableau, t.qubits = qs →
      (cmds.any (cmdBad qs) = true → ∃ e, cmds.foldlM builderStep t = .error e) ∧
      (cmds.all (fun o => !cmdBad qs o) = true →
        cmds.foldlM builderStep t = .ok (cmds.foldl applyCmd t)) := by
  induction cmds with
  | nil =>
      intro t ht
      constructor
      · intro h; simp at h
      · intro _; rfl
  | cons o cmds ih =>
      intro t ht
      constructor
      · intro h
        rw [List.foldlM_cons]
        cases hbad : cmdBad qs o with
        | true =>
            obtain ⟨e, he⟩ := builderStep_err ht hbad
            refine ⟨e, ?_⟩
            rw [he]
            rfl
        | false =>
            have hrest : cmds.any (cmdBad qs) = true := by
              simp only [List.any_cons, hbad, Bool.false_or] at h
              exact h
            have hstep := builderStep_ok ht hbad
            rw [hstep]
            have hq : (applyCmd t o).qubits = qs := by rw [applyCmd_qubits, ht]
            obtain ⟨e, he⟩ := (ih (applyCmd t o) hq).1 hrest
            exact ⟨e, he⟩
      · intro h
        simp only [List.all_cons, Bool.and_eq_true, Bool.not_eq_true'] at h
        rw [List.foldlM_cons, builderStep_ok ht h.1]
        have hq : (applyCmd t o).qubits = qs := by rw [applyCmd_qubits, ht]
        have := (ih (applyCmd t o) hq).2 (by
          rw [List.all_eq_true]
          intro x hx
          have := (List.all_eq_true.mp h.2) x hx
          exact this)
        rw [List.foldl_cons]
        exact this

/-- C7: for every input circuit, if some operation references a qubit
label outside the tableau's qubit mapping or has a gate kind/arity outside
the supported Clifford set, `circuit_to_tableau` fails with an
unknown-operand or unsupported-operation error and returns no partial
tableau; otherwise it returns exactly the tableau obtained by end-applying
each operation, in circuit order, to the identity tableau over the
circuit's qubit set. -/
theorem circuit_to_tableau_spec (circ : Circuit) :
    (circ.cmds.any (cmdBad circ.qubits) = true →
      ∃ e, circuit_to_tableau circ = .error e) ∧
    (circ.cmds.all (fun o => !cmdBad circ.qubits o) = true →
      circuit_to_tableau circ
        = .ok (circ.cmds.foldl applyCmd (CliffTableau.init circ.qubits))) := by
  have h := builder_go circ.qubits circ.cmds (CliffTableau.init circ.qubits) rfl
  exact h

/-- Witness for C7: a circuit holding a non-Clifford kind fails; a circuit
of supported gates over known qubits builds the end-application fold. -/
theorem circuit_to_tableau_spec_witness :
    (∃ e, circuit_to_tableau ⟨[0], [⟨.Other 0, [0]⟩]⟩ = .error e) ∧
    circuit_to_tableau ⟨[0, 1], [⟨.H, [0]⟩, ⟨.CX, [0, 1]⟩]⟩
      = .ok ((([⟨.H, [0]⟩, ⟨.CX, [0, 1]⟩] : List Op)).foldl applyCmd
          (CliffTableau.init [0, 1])) :=
  ⟨(circuit_to_tableau_spec ⟨[0], [⟨.Other 0, [0]⟩]⟩).1 (by decide),
   (circuit_to_tableau_spec ⟨[0, 1], [⟨.H, [0]⟩, ⟨.CX, [0, 1]⟩]⟩).2 (by decide)⟩

/-! ### Determinism of the synthesizer

The synthesizer never reads outside the `n × n` window of its input (and
never consults any unordered structure), so its output is a function of
the tableau's content alone.  `tabEquiv` is bounded extensional equality of
tableaux; the determinism theorem shows equal content gives byte-identical
output. -/

/-- Pointwise equality of matrices on the `n × n` window. -/
def MatEqOn (n : Nat) (A B : Mat) : Prop :=
  ∀ i j, i < n → j < n → A i j = B i j

/-- Pointwise equality of phase vectors on the first `n` rows. -/
def VecEqOn (n : Nat) (a b : Vec) : Prop :=
  ∀ i, i < n → a i = b i

/-- Extensional equivalence of two working tableaux of size `n`. -/
structure WEquiv (n : Nat) (t1 t2 : CliffTableau) : Prop where
  size1 : t1.size = n
  size2 : t2.size = n
  qubits : t1.qubits = t2.qubits
  xx : MatEqOn n t1.xpauli_x t2.xpauli_x
  xz : MatEqOn n t1.xpauli_z t2.xpauli_z
  xph : VecEqOn n t1.xpauli_phase t2.xpauli_phase
  zx : MatEqOn n t1.zpauli_x t2.zpauli_x
  zz : MatEqOn n t1.zpauli_z t2.zpauli_z
  zph : VecEqOn n t1.zpauli_phase t2.zpauli_phase

/-- Extensional equivalence of two synthesis contexts: equivalent working
tableaux and identical emitted gates and events. -/
structure SEquiv (n : Nat) (s1 s2 : SynthS) : Prop where
  work : WEquiv n s1.work s2.work
  gates : s1.gates = s2.gates
  events : s1.events = s2.events

theorem WEquiv.appS {n : Nat} {t1 t2 : CliffTableau} (h : WEquiv n t1 t2)
    {q : Nat} (hq : q < n) :
    WEquiv n (t1.apply_S_at_front q) (t2.apply_S_at_front q) := by
  refine ⟨h.size1, h.size2, h.qubits, h.xx, ?_, ?_, h.zx, ?_, ?_⟩
  · intro i j hi hj
    show colZxorX t1.size q _ _ i j = colZxorX t2.size q _ _ i j
    simp only [colZxorX, h.size1, h.size2]
    cases hc : (decide (i < n) && (j == q)) <;>
      simp [hc, h.xx i j hi hj, h.xz i j hi hj]
  · intro i hi
    show colPhaseS t1.size q _ _ _ i = colPhaseS t2.size q _ _ _ i
    simp only [colPhaseS, h.size1, h.size2]
    by_cases hc : i < n <;>
      simp [hc, h.xx i q hi hq, h.xz i q hi hq, h.xph i hi]
  · intro i j hi hj
    show colZxorX t1.size q _ _ i j = colZxorX t2.size q _ _ i j
    simp only [colZxorX, h.size1, h.size2]
    cases hc : (decide (i < n) && (j == q)) <;>
      simp [hc, h.zx i j hi hj, h.zz i j hi hj]
  · intro i hi
    show colPhaseS t1.size q _ _ _ i = colPhaseS t2.size q _ _ _ i
    simp only [colPhaseS, h.size1, h.size2]
    by_cases hc : i < n <;>
      simp [hc, h.zx i q hi hq, h.zz i q hi hq, h.zph i hi]

theorem WEquiv.appV {n : Nat} {t1 t2 : CliffTableau} (h : WEquiv n t1 t2)
    {q : Nat} (hq : q < n) :
    WEquiv n (t1.apply_V_at_front q) (t2.apply_V_at_front q) := by
  refine ⟨h.size1, h.size2, h.qubits, ?_, h.xz, ?_, ?_, h.zz, ?_⟩
  · intro i j hi hj
    show colXxorZ t1.size q _ _ i j = colXxorZ t2.size q _ _ i j
    simp only [colXxorZ, h.size1, h.size2]
    cases hc : (decide (i < n) && (j == q)) <;>
      simp [hc, h.xx i j hi hj, h.xz i j hi hj]
  · intro i hi
    show colPhaseV t1.size q _ _ _ i = colPhaseV t2.size q _ _ _ i
    simp only [colPhaseV, h.size1, h.size2]
    by_cases hc : i < n <;>
      simp [hc, h.xx i q hi hq, h.xz i q hi hq, h.xph i hi]
  · intro i j hi hj
    show colXxorZ t1.size q _ _ i j = colXxorZ t2.size q _ _ i j
    simp only [colXxorZ, h.size1, h.size2]
    cases hc : (decide (i < n) && (j == q)) <;>
      simp [hc, h.zx i j hi hj, h.zz i j hi hj]
  · intro i hi
    show colPhaseV t1.size q _ _ _ i = colPhaseV t2.size q _ _ _ i
    simp only [colPhaseV, h.size1, h.size2]
    by_cases hc : i < n <;>
      simp [hc, h.zx i q hi hq, h.zz i q hi hq, h.zph i hi]

theorem WEquiv.appCX {n : Nat} {t1 t2 : CliffTableau} (h : WEquiv n t1 t2)
    {a b : Nat} (ha : a < n) (hb : b < n) :
    WEquiv n (t1.apply_CX_at_front a b) (t2.apply_CX_at_front a b) := by
  refine ⟨h.size1, h.size2, h.qubits, ?_, ?_, ?_, ?_, ?_, ?_⟩
  · intro i j hi hj
    show colCXX t1.size a b _ i j = colCXX t2.size a b _ i j
    simp only [colCXX, h.size1, h.size2]
    cases hc : (decide (i < n) && (j == a)) <;>
      simp [hc, h.xx i j hi hj, h.xx i b hi hb]
  · intro i j hi hj
    show colCXZ t1.size a b _ i j = colCXZ t2.size a b _ i j
    simp only [colCXZ, h.size1, h.size2]
    cases hc : (decide (i < n) && (j == b)) <;>
      simp [hc, h.xz i j hi hj, h.xz i a hi ha]
  · intro i hi
    show colPhaseCX t1.size a b _ _ _ i = colPhaseCX t2.size a b _ _ _ i
    simp only [colPhaseCX, h.size1, h.size2]
    by_cases hc : i < n <;>
      simp [hc, h.xx i a hi ha, h.xx i b hi hb, h.xz i a hi ha, h.xz i b hi hb, h.xph i hi]
  · intro i j hi hj
    show colCXX t1.size a b _ i j = colCXX t2.size a b _ i j
    simp only [colCXX, h.size1, h.size2]
    cases hc : (decide (i < n) && (j == a)) <;>
      simp [hc, h.zx i j hi hj, h.zx i b hi hb]
  · intro i j hi hj
    show colCXZ t1.size a b _ i j = colCXZ t2.size a b _ i j
    simp only [colCXZ, h.size1, h.size2]
    cases hc : (decide (i < n) && (j == b)) <;>
      simp [hc, h.zz i j hi hj, h.zz i a hi ha]
  · intro i hi
    show colPhaseCX t1.size a b _ _ _ i = colPhaseCX t2.size a b _ _ _ i
    simp only [colPhaseCX, h.size1, h.size2]
    by_cases hc : i < n <;>
      simp [hc, h.zx i a hi ha, h.zx i b hi hb, h.zz i a hi ha, h.zz i b hi hb, h.zph i hi]

theorem SEquiv.emitS3 {n : Nat} {s1 s2 : SynthS} (h : SEquiv n s1 s2)
    {q : Nat} (hq : q < n) : SEquiv n (emitS3 s1 q) (emitS3 s2 q) :=
  ⟨((h.work.appS hq).appS hq).appS hq,
   by simp [Tket.emitS3, SynthS.emit, SynthS.appS, h.gates],
   by simp [Tket.emitS3, SynthS.emit, SynthS.appS, h.events]⟩

theorem SEquiv.emitV3 {n : Nat} {s1 s2 : SynthS} (h : SEquiv n s1 s2)
    {q : Nat} (hq : q < n) : SEquiv n (emitV3 s1 q) (emitV3 s2 q) :=
  ⟨((h.work.appV hq).appV hq).appV hq,
   by simp [Tket.emitV3, SynthS.emit, SynthS.appV, h.gates],
   by simp [Tket.emitV3, SynthS.emit, SynthS.appV, h.events]⟩

theorem SEquiv.emitH {n : Nat} {s1 s2 : SynthS} (h : SEquiv n s1 s2)
    {q : Nat} (hq : q < n) : SEquiv n (emitH s1 q) (emitH s2 q) :=
  ⟨((h.work.appS hq).appV hq).appS hq,
   by simp [Tket.emitH, SynthS.emit, SynthS.appS, SynthS.appV, h.gates],
   by simp [Tket.emitH, SynthS.emit, SynthS.appS, SynthS.appV, h.events]⟩

theorem SEquiv.emitCX {n : Nat} {s1 s2 : SynthS} (h : SEquiv n s1 s2)
    {a b : Nat} (ha : a < n) (hb : b < n) : SEquiv n (emitCX s1 a b) (emitCX s2 a b) :=
  ⟨h.work.appCX ha hb,
   by simp [Tket.emitCX, SynthS.emit, SynthS.appCX, h.gates],
   by simp [Tket.emitCX, SynthS.emit, SynthS.appCX, h.events]⟩

theorem SEquiv.emitZ2 {n : Nat} {s1 s2 : SynthS} (h : SEquiv n s1 s2)
    {q : Nat} (hq : q < n) : SEquiv n (emitZ2 s1 q) (emitZ2 s2 q) :=
  ⟨(h.work.appS hq).appS hq,
   by simp [Tket.emitZ2, SynthS.emit, SynthS.appS, h.gates],
   by simp [Tket.emitZ2, SynthS.emit, SynthS.appS, h.events]⟩

theorem SEquiv.emitX2 {n : Nat} {s1 s2 : SynthS} (h : SEquiv n s1 s2)
    {q : Nat} (hq : q < n) : SEquiv n (emitX2 s1 q) (emitX2 s2 q) :=
  ⟨(h.work.appV hq).appV hq,
   by simp [Tket.emitX2, SynthS.emit, SynthS.appV, h.gates],
   by simp [Tket.emitX2, SynthS.emit, SynthS.appV, h.events]⟩

theorem SEquiv.replayCX {n : Nat} {s1 s2 : SynthS} (h : SEquiv n s1 s2)
    {l : List (Nat × Nat)} (hl : ∀ p ∈ l, p.1 < n ∧ p.2 < n) :
    SEquiv n (replayCX s1 l) (replayCX s2 l) := by
  induction l generalizing s1 s2 with
  | nil => exact h
  | cons p rest ih =>
      cases p with
      | mk a b =>
          have hp := hl (a, b) (List.mem_cons_self _ _)
          exact ih (h.emitCX hp.1 hp.2) (fun p hp2 => hl p (List.mem_cons_of_mem _ hp2))

theorem SEquiv.replayCXRev {n : Nat} {s1 s2 : SynthS} (h : SEquiv n s1 s2)
    {l : List (Nat × Nat)} (hl : ∀ p ∈ l, p.1 < n ∧ p.2 < n) :
    SEquiv n (replayCXRev s1 l) (replayCXRev s2 l) := by
  induction l generalizing s1 s2 with
  | nil => exact h
  | cons p rest ih =>
      cases p with
      | mk a b =>
          have hp := hl (a, b) (List.mem_cons_self _ _)
          exact (ih h (fun p hp2 => hl p (List.mem_cons_of_mem _ hp2))).emitCX hp.1 hp.2

/-! Congruence and bounds for the GF(2) collaborators. -/

theorem xorColInto_eqOn {n : Nat} {A B : Mat} (h : MatEqOn n A B)
    {tgt src : Nat} (hsrc : src < n) :
    MatEqOn n (xorColInto n A tgt src) (xorColInto n B tgt src) := by
  intro i j hi hj
  simp only [xorColInto]
  cases hc : (decide (i < n) && (j == tgt)) <;>
    simp [hc, h i j hi hj, h i src hi hsrc]

theorem setColFrom_eqOn {n : Nat} {A B : Mat} (h : MatEqOn n A B)
    {i : Nat} {f g : Nat → Bool} (hfg : ∀ r, r < n → f r = g r) :
    MatEqOn n (setColFrom n A i f) (setColFrom n B i g) := by
  intro r j hr hj
  simp only [setColFrom]
  cases hc : (decide (r < n) && (j == i)) <;>
    simp_all [hc, h r j hr hj]

/-- Bound invariant for a pivot list: keys and values below `n`. -/
def lvcBound (n : Nat) (lvc : List (Nat × Nat)) : Prop :=
  ∀ p ∈ lvc, p.1 < n ∧ p.2 < n

/-- Bound invariant for an operation list. -/
def opsBound (n : Nat) (ops : List (Nat × Nat)) : Prop :=
  ∀ p ∈ ops, p.1 < n ∧ p.2 < n

theorem lvc_lookup_bound {n : Nat} {lvc : List (Nat × Nat)} (h : lvcBound n lvc)
    {j l : Nat} (hl : lvc.lookup j = some l) : l < n := by
  induction lvc with
  | nil => simp [List.lookup] at hl
  | cons p rest ih =>
      rw [List.lookup] at hl
      cases hc : (j == p.1) with
      | true =>
          rw [hc] at hl
          simp at hl
          exact hl ▸ (h p (List.mem_cons_self _ _)).2
      | false =>
          rw [hc] at hl
          simp at hl
          exact ih (fun q hq => h q (List.mem_cons_of_mem _ hq)) hl

theorem find?_congr {α : Type} {l : List α} {p q : α → Bool}
    (h : ∀ a ∈ l, p a = q a) : l.find? p = l.find? q := by
  induction l with
  | nil => rfl
  | cons a rest ih =>
      simp only [List.find?_cons]
      rw [h a (List.mem_cons_self _ _)]
      cases hq : q a <;>
        simp [hq, ih (fun x hx => h x (List.mem_cons_of_mem _ hx))]

theorem gaussScan_go (n i : Nat) (hi : i < n) :
    ∀ (rows : List Nat) (m1 m2 : Mat) (lvc ops : List (Nat × Nat)),
      (∀ j ∈ rows, j < n) →
      MatEqOn n m1 m2 → lvcBound n lvc → opsBound n ops →
      MatEqOn n (gaussScan n i ⟨m1, lvc, ops⟩ rows).m (gaussScan n i ⟨m2, lvc, ops⟩ rows).m ∧
      (gaussScan n i ⟨m1, lvc, ops⟩ rows).lvc = (gaussScan n i ⟨m2, lvc, ops⟩ rows).lvc ∧
      (gaussScan n i ⟨m1, lvc, ops⟩ rows).ops = (gaussScan n i ⟨m2, lvc, ops⟩ rows).ops ∧
      lvcBound n (gaussScan n i ⟨m1, lvc, ops⟩ rows).lvc ∧
      opsBound n (gaussScan n i ⟨m1, lvc, ops⟩ rows).ops := by
  intro rows
  induction rows with
  | nil => intro m1 m2 lvc ops _ hm hlb hob; exact ⟨hm, rfl, rfl, hlb, hob⟩
  | cons j rest ih =>
      intro m1 m2 lvc ops hrows hm hlb hob
      have hj : j < n := hrows j (List.mem_cons_self _ _)
      have hrest : ∀ x ∈ rest, x < n := fun x hx => hrows x (List.mem_cons_of_mem _ hx)
      have hm2 : m2 j i = m1 j i := (hm j i hj hi).symm
      simp only [gaussScan, hm2]
      cases hgm : m1 j i with
      | false =>
          rw [if_neg Bool.false_ne_true, if_neg Bool.false_ne_true]
          exact ih m1 m2 lvc ops hrest hm hlb hob
      | true =>
          rw [if_pos rfl, if_pos rfl]
          cases hlk : List.lookup j lvc with
          | none =>
              simp only [hlk]
              refine ⟨hm, trivial, trivial, ?_, hob⟩
              intro p hp
              rcases List.mem_append.mp hp with hp | hp
              · exact hlb p hp
              · simp at hp
                rw [hp]
                exact ⟨hj, hi⟩
          | some l =>
              simp only [hlk]
              have hln : l < n := lvc_lookup_bound hlb hlk
              refine ih _ _ lvc _ hrest (xorColInto_eqOn hm hln) hlb ?_
              intro p hp
              rcases List.mem_append.mp hp with hp | hp
              · exact hob p hp
              · simp at hp
                rw [hp]
                exact ⟨hi, hln⟩

theorem gaussForward_go (n : Nat) :
    ∀ (cols : List Nat) (m1 m2 : Mat) (lvc ops : List (Nat × Nat)),
      (∀ i ∈ cols, i < n) →
      MatEqOn n m1 m2 → lvcBound n lvc → opsBound n ops →
      MatEqOn n (cols.foldl (fun g i => gaussScan n i g (List.range n)) ⟨m1, lvc, ops⟩).m
        (cols.foldl (fun g i => gaussScan n i g (List.range n)) ⟨m2, lvc, ops⟩).m ∧
      (cols.foldl (fun g i => gaussScan n i g (List.range n)) ⟨m1, lvc, ops⟩).lvc
        = (cols.foldl (fun g i => gaussScan n i g (List.range n)) ⟨m2, lvc, ops⟩).lvc ∧
      (cols.foldl (fun g i => gaussScan n i g (List.range n)) ⟨m1, lvc, ops⟩).ops
        = (cols.foldl (fun g i => gaussScan n i g (List.range n)) ⟨m2, lvc, ops⟩).ops ∧
      lvcBound n (cols.foldl (fun g i => gaussScan n i g (List.range n)) ⟨m1, lvc, ops⟩).lvc ∧
      opsBound n (cols.foldl (fun g i => gaussScan n i g (List.range n)) ⟨m1, lvc, ops⟩).ops := by
  intro cols
  induction cols with
  | nil => intro m1 m2 lvc ops _ hm hlb hob; exact ⟨hm, rfl, rfl, hlb, hob⟩
  | cons i rest ih =>
      intro m1 m2 lvc ops hcols hm hlb hob
      have hi : i < n := hcols i (List.mem_cons_self _ _)
      obtain ⟨hm1, hl1, ho1, hlb1, hob1⟩ :=
        gaussScan_go n i hi (List.range n) m1 m2 lvc ops
          (fun j hj => List.mem_range.mp hj) hm hlb hob
      have e1 : gaussScan n i ⟨m1, lvc, ops⟩ (List.range n)
          = ⟨(gaussScan n i ⟨m1, lvc, ops⟩ (List.range n)).m,
             (gaussScan n i ⟨m1, lvc, ops⟩ (List.range n)).lvc,
             (gaussScan n i ⟨m1, lvc, ops⟩ (List.range n)).ops⟩ := rfl
      have e2 : gaussScan n i ⟨m2, lvc, ops⟩ (List.range n)
          = ⟨(gaussScan n i ⟨m2, lvc, ops⟩ (List.range n)).m,
             (gaussScan n i ⟨m1, lvc, ops⟩ (List.range n)).lvc,
             (gaussScan n i ⟨m1, lvc, ops⟩ (List.range n)).ops⟩ := by
        rw [hl1, ho1]
      have h := ih (gaussScan n i ⟨m1, lvc, ops⟩ (List.range n)).m
        (gaussScan n i ⟨m2, lvc, ops⟩ (List.range n)).m
        (gaussScan n i ⟨m1, lvc, ops⟩ (List.range n)).lvc
        (gaussScan n i ⟨m1, lvc, ops⟩ (List.range n)).ops
        (fun x hx => hcols x (List.mem_cons_of_mem _ hx)) hm1 hlb1 hob1
      rw [List.foldl_cons, List.foldl_cons, e1, e2]
      exact h

theorem clearRow_go (n r c : Nat) (hr : r < n) (hc : c < n) :
    ∀ (cols : List Nat) (A1 A2 : Mat) (ops : List (Nat × Nat)),
      (∀ j ∈ cols, j < n) →
      MatEqOn n A1 A2 → opsBound n ops →
      MatEqOn n (cols.foldl (fun p j =>
          if j != c && p.1 r j then (xorColInto n p.1 j c, p.2 ++ [(j, c)]) else p)
          (A1, ops)).1
        (cols.foldl (fun p j =>
          if j != c && p.1 r j then (xorColInto n p.1 j c, p.2 ++ [(j, c)]) else p)
          (A2, ops)).1 ∧
      (cols.foldl (fun p j =>
          if j != c && p.1 r j then (xorColInto n p.1 j c, p.2 ++ [(j, c)]) else p)
          (A1, ops)).2
        = (cols.foldl (fun p j =>
          if j != c && p.1 r j then (xorColInto n p.1 j c, p.2 ++ [(j, c)]) else p)
          (A2, ops)).2 ∧
      opsBound n (cols.foldl (fun p j =>
          if j != c && p.1 r j then (xorColInto n p.1 j c, p.2 ++ [(j, c)]) else p)
          (A1, ops)).2 := by
  intro cols
  induction cols with
  | nil => intro A1 A2 ops _ hm hob; exact ⟨hm, rfl, hob⟩
  | cons j rest ih =>
      intro A1 A2 ops hcols hm hob
      have hj : j < n := hcols j (List.mem_cons_self _ _)
      have hrest : ∀ x ∈ rest, x < n := fun x hx => hcols x (List.mem_cons_of_mem _ hx)
      have hm2 : A2 r j = A1 r j := (hm r j hr hj).symm
      simp only [List.foldl_cons, hm2]
      cases hcond : (j != c && A1 r j) with
      | false =>
          rw [if_neg Bool.false_ne_true, if_neg Bool.false_ne_true]
          exact ih A1 A2 ops hrest hm hob
      | true =>
          rw [if_pos rfl, if_pos rfl]
          refine ih _ _ _ hrest (xorColInto_eqOn hm hc) ?_
          intro p hp
          rcases List.mem_append.mp hp with hp | hp
          · exact hob p hp
          · simp at hp
            rw [hp]
            exact ⟨hj, hc⟩

theorem clearRow_go' (n r c : Nat) (hr : r < n) (hc : c < n)
    {p1 p2 : Mat × List (Nat × Nat)}
    (hm : MatEqOn n p1.1 p2.1) (ho : p1.2 = p2.2) (hob : opsBound n p1.2) :
    MatEqOn n (clearRow n r c p1).1 (clearRow n r c p2).1 ∧
    (clearRow n r c p1).2 = (clearRow n r c p2).2 ∧
    opsBound n (clearRow n r c p1).2 := by
  have e1 : p1 = (p1.1, p1.2) := rfl
  have e2 : p2 = (p2.1, p1.2) := by rw [ho]
  rw [clearRow, clearRow, e1, e2]
  exact clearRow_go n r c hr hc (List.range n) p1.1 p2.1 p1.2
    (fun j hj => List.mem_range.mp hj) hm hob

theorem gaussBackward_go (n : Nat) (lvc : List (Nat × Nat)) (hlb : lvcBound n lvc) :
    ∀ (rows : List Nat) (p1 p2 : Mat × List (Nat × Nat)),
      (∀ r ∈ rows, r < n) →
      MatEqOn n p1.1 p2.1 → p1.2 = p2.2 → opsBound n p1.2 →
      MatEqOn n (rows.foldr (fun r p =>
          match List.lookup r lvc with
          | none => p
          | some c => clearRow n r c p) p1).1
        (rows.foldr (fun r p =>
          match List.lookup r lvc with
          | none => p
          | some c => clearRow n r c p) p2).1 ∧
      (rows.foldr (fun r p =>
          match List.lookup r lvc with
          | none => p
          | some c => clearRow n r c p) p1).2
        = (rows.foldr (fun r p =>
          match List.lookup r lvc with
          | none => p
          | some c => clearRow n r c p) p2).2 ∧
      opsBound n (rows.foldr (fun r p =>
          match List.lookup r lvc with
          | none => p
          | some c => clearRow n r c p) p1).2 := by
  intro rows
  induction rows with
  | nil => intro p1 p2 _ hm ho hob; exact ⟨hm, ho, hob⟩
  | cons r rest ih =>
      intro p1 p2 hrows hm ho hob
      have hr : r < n := hrows r (List.mem_cons_self _ _)
      obtain ⟨hm1, ho1, hob1⟩ := ih p1 p2
        (fun x hx => hrows x (List.mem_cons_of_mem _ hx)) hm ho hob
      simp only [List.foldr_cons]
      cases hlk : List.lookup r lvc with
      | none => exact ⟨hm1, ho1, hob1⟩
      | some c =>
          have hcn : c < n := lvc_lookup_bound hlb hlk
          exact clearRow_go' n r c hr hcn hm1 ho1 hob1

theorem gaussDiag_go (n : Nat) :
    ∀ (cols : List Nat) (A1 A2 : Mat) (ops : List (Nat × Nat)),
      (∀ i ∈ cols, i < n) →
      MatEqOn n A1 A2 → opsBound n ops →
      MatEqOn n ((cols.foldl (fun p i =>
          if p.1 i i then p
          else
            match (List.range n).find? (fun j => p.1 i j) with
            | none => p
            | some j => swapOps n i j p) (A1, ops)).1)
        ((cols.foldl (fun p i =>
          if p.1 i i then p
          else
            match (List.range n).find? (fun j => p.1 i j) with
            | none => p
            | some j => swapOps n i j p) (A2, ops)).1) ∧
      (cols.foldl (fun p i =>
          if p.1 i i then p
          else
            match (List.range n).find? (fun j => p.1 i j) with
            | none => p
            | some j => swapOps n i j p) (A1, ops)).2
        = (cols.foldl (fun p i =>
          if p.1 i i then p
          else
            match (List.range n).find? (fun j => p.1 i j) with
            | none => p
            | some j => swapOps n i j p) (A2, ops)).2 ∧
      opsBound n (cols.foldl (fun p i =>
          if p.1 i i then p
          else
            match (List.range n).find? (fun j => p.1 i j) with
            | none => p
            | some j => swapOps n i j p) (A1, ops)).2 := by
  intro cols
  induction cols with
  | nil => intro A1 A2 ops _ hm hob; exact ⟨hm, rfl, hob⟩
  | cons i rest ih =>
      intro A1 A2 ops hcols hm hob
      have hi : i < n := hcols i (List.mem_cons_self _ _)
      have hrest : ∀ x ∈ rest, x < n := fun x hx => hcols x (List.mem_cons_of_mem _ hx)
      have hAii : A2 i i = A1 i i := (hm i i hi hi).symm
      simp only [List.foldl_cons, hAii]
      cases hcond : A1 i i with
      | true =>
          rw [if_pos rfl, if_pos rfl]
          exact ih A1 A2 ops hrest hm hob
      | false =>
          rw [if_neg Bool.false_ne_true, if_neg Bool.false_ne_true]
          have hfind : (List.range n).find? (fun j => A2 i j)
              = (List.range n).find? (fun j => A1 i j) :=
            find?_congr (fun j hj => (hm i j hi (List.mem_range.mp hj)).symm)
          rw [hfind]
          cases hf : (List.range n).find? (fun j => A1 i j) with
          | none => exact ih A1 A2 ops hrest hm hob
          | some j =>
              have hjn : j < n :=
                List.mem_range.mp (List.mem_of_find?_eq_some hf)
              have hm3 : MatEqOn n
                  (xorColInto n (xorColInto n (xorColInto n A1 i j) j i) i j)
                  (xorColInto n (xorColInto n (xorColInto n A2 i j) j i) i j) :=
                xorColInto_eqOn (xorColInto_eqOn (xorColInto_eqOn hm hjn) hi) hjn
              refine ih _ _ _ hrest hm3 ?_
              intro p hp
              rcases List.mem_append.mp hp with hp | hp
              · exact hob p hp
              · simp at hp
                rcases hp with hp | hp | hp <;> rw [hp] <;> exact ⟨by omega, by omega⟩

theorem gaussDiag_go' (n : Nat) {p1 p2 : Mat × List (Nat × Nat)}
    (hm : MatEqOn n p1.1 p2.1) (ho : p1.2 = p2.2) (hob : opsBound n p1.2) :
    MatEqOn n (gaussDiag n p1).1 (gaussDiag n p2).1 ∧
    (gaussDiag n p1).2 = (gaussDiag n p2).2 ∧
    opsBound n (gaussDiag n p1).2 := by
  have e1 : p1 = (p1.1, p1.2) := rfl
  have e2 : p2 = (p2.1, p1.2) := by rw [ho]
  rw [gaussDiag, gaussDiag, e1, e2]
  exact gaussDiag_go n (List.range n) p1.1 p2.1 p1.2
    (fun i hi => List.mem_range.mp hi) hm hob

/-- The recorded operations of the modelled Gaussian elimination depend
only on the `n × n` window of the input, and stay inside it. -/
theorem gauss_ops_go (n : Nat) {M1 M2 : Mat} (h : MatEqOn n M1 M2) :
    gaussian_elimination_col_ops n M1 = gaussian_elimination_col_ops n M2 ∧
    opsBound n (gaussian_elimination_col_ops n M1) := by
  obtain ⟨hm1, hl1, ho1, hlb1, hob1⟩ := gaussForward_go n (List.range n) M1 M2 [] []
    (fun i hi => List.mem_range.mp hi) h
    (by intro p hp; simp at hp) (by intro p hp; simp at hp)
  have hm1' : MatEqOn n (gaussForward n M1).m (gaussForward n M2).m := hm1
  have hl1' : (gaussForward n M1).lvc = (gaussForward n M2).lvc := hl1
  have ho1' : (gaussForward n M1).ops = (gaussForward n M2).ops := ho1
  have hlb1' : lvcBound n (gaussForward n M1).lvc := hlb1
  have hob1' : opsBound n (gaussForward n M1).ops := hob1
  have hB2 : gaussBackward n (gaussForward n M2)
      = (List.range n).foldr (fun r p =>
          match List.lookup r (gaussForward n M1).lvc with
          | none => p
          | some c => clearRow n r c p)
        ((gaussForward n M2).m, (gaussForward n M2).ops) := by
    unfold gaussBackward
    rw [← hl1']
  obtain ⟨hmB, hoB, hobB⟩ := gaussBackward_go n (gaussForward n M1).lvc hlb1'
    (List.range n) ((gaussForward n M1).m, (gaussForward n M1).ops)
    ((gaussForward n M2).m, (gaussForward n M2).ops)
    (fun r hr => List.mem_range.mp hr) hm1' ho1' hob1'
  have hB1 : gaussBackward n (gaussForward n M1)
      = (List.range n).foldr (fun r p =>
          match List.lookup r (gaussForward n M1).lvc with
          | none => p
          | some c => clearRow n r c p)
        ((gaussForward n M1).m, (gaussForward n M1).ops) := rfl
  obtain ⟨hmD, hoD, hobD⟩ := @gaussDiag_go' n (gaussBackward n (gaussForward n M1))
    (gaussBackward n (gaussForward n M2))
    (by rw [hB1, hB2]; exact hmB) (by rw [hB1, hB2]; exact hoB) (by rw [hB1]; exact hobB)
  exact ⟨hoD, hobD⟩

theorem lltRow_congr (n : Nat) {D1 D2 : Mat} (h : MatEqOn n D1 D2)
    {i : Nat} (hi : i < n) (prev : List (List Bool)) :
    lltRow n D1 i prev = lltRow n D2 i prev := by
  unfold lltRow
  apply List.foldl_ext
  intro cur j hj
  have hjn : j < n := List.mem_range.mp hj
  by_cases hji : j < i
  · rw [if_pos hji, if_pos hji, h i j hi hjn]
  · rw [if_neg hji, if_neg hji]

theorem lltRows_congr (n : Nat) {D1 D2 : Mat} (h : MatEqOn n D1 D2) :
    lltRows n D1 = lltRows n D2 := by
  unfold lltRows
  apply List.foldl_ext
  intro prev i hi
  rw [lltRow_congr n h (List.mem_range.mp hi) prev]

theorem llt_congr (n : Nat) {D1 D2 : Mat} (h : MatEqOn n D1 D2) :
    binary_LLT_decomposition n D1 = binary_LLT_decomposition n D2 := by
  have hrows : lltRows n D1 = lltRows n D2 := lltRows_congr n h
  simp only [binary_LLT_decomposition]
  rw [hrows]
  congr 1
  funext i j
  cases hc : ((i == j) && decide (i < n)) with
  | false => rw [if_neg (by simp [hc]), if_neg (by simp [hc])]
  | true =>
      have hin : i < n := by
        simp only [Bool.and_eq_true, decide_eq_true_eq] at hc
        exact hc.2
      rw [if_pos (by simp [hc]), if_pos (by simp [hc]), h i i hin hin]

/-- Generic congruence of a fold over in-range indices. -/
theorem SEquiv.foldBlocks {n : Nat} (f : SynthS → Nat → SynthS)
    (hf : ∀ i, i < n → ∀ s1 s2 : SynthS, SEquiv n s1 s2 → SEquiv n (f s1 i) (f s2 i)) :
    ∀ (l : List Nat), (∀ i ∈ l, i < n) → ∀ {s1 s2 : SynthS}, SEquiv n s1 s2 →
      SEquiv n (l.foldl f s1) (l.foldl f s2) := by
  intro l
  induction l with
  | nil => intro _ s1 s2 h; exact h
  | cons i rest ih =>
      intro hl s1 s2 h
      exact ih (fun x hx => hl x (List.mem_cons_of_mem _ hx))
        (hf i (hl i (List.mem_cons_self _ _)) s1 s2 h)

theorem SEquiv.step2C {n : Nat} {s1 s2 : SynthS} (h : SEquiv n s1 s2) :
    SEquiv n (step2 n s1) (step2 n s2) := by
  obtain ⟨heq, hb⟩ := gauss_ops_go n h.work.zx
  show SEquiv n (Tket.replayCX s1 _) (Tket.replayCX s2 _)
  rw [← heq]
  exact h.replayCX hb

theorem SEquiv.step3SC {n : Nat} {s1 s2 : SynthS} (h : SEquiv n s1 s2) :
    SEquiv n (step3S n s1) (step3S n s2) := by
  show SEquiv n
    ((List.range n).foldl (fun s i =>
      if (binary_LLT_decomposition n s1.work.zpauli_z).2 i i then Tket.emitS3 s i else s) s1)
    ((List.range n).foldl (fun s i =>
      if (binary_LLT_decomposition n s2.work.zpauli_z).2 i i then Tket.emitS3 s i else s) s2)
  rw [show binary_LLT_decomposition n s2.work.zpauli_z
      = binary_LLT_decomposition n s1.work.zpauli_z from (llt_congr n h.work.zz).symm]
  refine SEquiv.foldBlocks _ ?_ (List.range n) (fun i hi => List.mem_range.mp hi) h
  intro i hi t1 t2 ht
  cases hc : (binary_LLT_decomposition n s1.work.zpauli_z).2 i i with
  | false => rw [if_neg Bool.false_ne_true, if_neg Bool.false_ne_true]; exact ht
  | true => rw [if_pos rfl, if_pos rfl]; exact ht.emitS3 hi

theorem SEquiv.step34C {n : Nat} {s1 s2 : SynthS} (h : SEquiv n s1 s2) :
    SEquiv n (step34 n s1) (step34 n s2) := by
  have hfst : MatEqOn n (binary_LLT_decomposition n s1.work.zpauli_z).1
      (binary_LLT_decomposition n s2.work.zpauli_z).1 := by
    rw [llt_congr n h.work.zz]
    exact fun i j _ _ => rfl
  obtain ⟨heq, hb⟩ := gauss_ops_go n hfst
  show SEquiv n (Tket.replayCXRev (step3S n s1) _) (Tket.replayCXRev (step3S n s2) _)
  rw [show binary_LLT_decomposition n s2.work.zpauli_z
      = binary_LLT_decomposition n s1.work.zpauli_z from (llt_congr n h.work.zz).symm]
  exact (h.step3SC).replayCXRev hb

theorem SEquiv.step5C {n : Nat} {s1 s2 : SynthS} (h : SEquiv n s1 s2) :
    SEquiv n (step5 n s1) (step5 n s2) := by
  show SEquiv n ((List.range n).foldl (fun s i => Tket.emitS3 s i) s1)
    ((List.range n).foldl (fun s i => Tket.emitS3 s i) s2)
  exact SEquiv.foldBlocks (fun s i => Tket.emitS3 s i) (fun i hi t1 t2 ht => ht.emitS3 hi)
    (List.range n) (fun i hi => List.mem_range.mp hi) h

theorem SEquiv.step6C {n : Nat} {s1 s2 : SynthS} (h : SEquiv n s1 s2) :
    SEquiv n (step6 n s1) (step6 n s2) := by
  obtain ⟨heq, hb⟩ := gauss_ops_go n h.work.zx
  show SEquiv n (Tket.replayCX s1 _) (Tket.replayCX s2 _)
  rw [← heq]
  exact h.replayCX hb

theorem SEquiv.step7C {n : Nat} {s1 s2 : SynthS} (h : SEquiv n s1 s2) :
    SEquiv n (step7 n s1) (step7 n s2) := by
  show SEquiv n ((List.range n).foldl (fun s i => Tket.emitH s i) s1)
    ((List.range n).foldl (fun s i => Tket.emitH s i) s2)
  exact SEquiv.foldBlocks (fun s i => Tket.emitH s i) (fun i hi t1 t2 ht => ht.emitH hi)
    (List.range n) (fun i hi => List.mem_range.mp hi) h

theorem SEquiv.step8SC {n : Nat} {s1 s2 : SynthS} (h : SEquiv n s1 s2) :
    SEquiv n (step8S n s1) (step8S n s2) := by
  show SEquiv n
    ((List.range n).foldl (fun s i =>
      if (binary_LLT_decomposition n s1.work.xpauli_z).2 i i then Tket.emitS3 s i else s) s1)
    ((List.range n).foldl (fun s i =>
      if (binary_LLT_decomposition n s2.work.xpauli_z).2 i i then Tket.emitS3 s i else s) s2)
  rw [show binary_LLT_decomposition n s2.work.xpauli_z
      = binary_LLT_decomposition n s1.work.xpauli_z from (llt_congr n h.work.xz).symm]
  refine SEquiv.foldBlocks _ ?_ (List.range n) (fun i hi => List.mem_range.mp hi) h
  intro i hi t1 t2 ht
  cases hc : (binary_LLT_decomposition n s1.work.xpauli_z).2 i i with
  | false => rw [if_neg Bool.false_ne_true, if_neg Bool.false_ne_true]; exact ht
  | true => rw [if_pos rfl, if_pos rfl]; exact ht.emitS3 hi

theorem SEquiv.step89C {n : Nat} {s1 s2 : SynthS} (h : SEquiv n s1 s2) :
    SEquiv n (step89 n s1) (step89 n s2) := by
  have hfst : MatEqOn n (binary_LLT_decomposition n s1.work.xpauli_z).1
      (binary_LLT_decomposition n s2.work.xpauli_z).1 := by
    rw [llt_congr n h.work.xz]
    exact fun i j _ _ => rfl
  obtain ⟨heq, hb⟩ := gauss_ops_go n hfst
  show SEquiv n (Tket.replayCXRev (step8S n s1) _) (Tket.replayCXRev (step8S n s2) _)
  rw [show binary_LLT_decomposition n s2.work.xpauli_z
      = binary_LLT_decomposition n s1.work.xpauli_z from (llt_congr n h.work.xz).symm]
  exact (h.step8SC).replayCXRev hb

theorem SEquiv.step10C {n : Nat} {s1 s2 : SynthS} (h : SEquiv n s1 s2) :
    SEquiv n (step10 n s1) (step10 n s2) := by
  show SEquiv n ((List.range n).foldl (fun s i => Tket.emitS3 s i) s1)
    ((List.range n).foldl (fun s i => Tket.emitS3 s i) s2)
  exact SEquiv.foldBlocks (fun s i => Tket.emitS3 s i) (fun i hi t1 t2 ht => ht.emitS3 hi)
    (List.range n) (fun i hi => List.mem_range.mp hi) h

theorem SEquiv.step11C {n : Nat} {s1 s2 : SynthS} (h : SEquiv n s1 s2) :
    SEquiv n (step11 n s1) (step11 n s2) := by
  obtain ⟨heq, hb⟩ := gauss_ops_go n h.work.xx
  show SEquiv n (Tket.replayCX s1 _) (Tket.replayCX s2 _)
  rw [← heq]
  exact h.replayCX hb

theorem SEquiv.delayedBodyC {n : Nat} {s1 s2 : SynthS} (h : SEquiv n s1 s2)
    {i : Nat} (hi : i < n) : SEquiv n (delayedBody s1 i) (delayedBody s2 i) := by
  show SEquiv n
    (if (if s1.work.xpauli_phase i then Tket.emitZ2 s1 i else s1).work.zpauli_phase i then
       Tket.emitX2 (if s1.work.xpauli_phase i then Tket.emitZ2 s1 i else s1) i
     else if s1.work.xpauli_phase i then Tket.emitZ2 s1 i else s1)
    (if (if s2.work.xpauli_phase i then Tket.emitZ2 s2 i else s2).work.zpauli_phase i then
       Tket.emitX2 (if s2.work.xpauli_phase i then Tket.emitZ2 s2 i else s2) i
     else if s2.work.xpauli_phase i then Tket.emitZ2 s2 i else s2)
  rw [show s2.work.xpauli_phase i = s1.work.xpauli_phase i from (h.work.xph i hi).symm]
  by_cases hxp : s1.work.xpauli_phase i = true
  · rw [if_pos hxp, if_pos hxp]
    have h1 := h.emitZ2 hi
    rw [show (Tket.emitZ2 s2 i).work.zpauli_phase i = (Tket.emitZ2 s1 i).work.zpauli_phase i from
      (h1.work.zph i hi).symm]
    by_cases hzp : (Tket.emitZ2 s1 i).work.zpauli_phase i = true
    · rw [if_pos hzp, if_pos hzp]
      exact h1.emitX2 hi
    · rw [if_neg hzp, if_neg hzp]
      exact h1
  · rw [if_neg hxp, if_neg hxp]
    rw [show s2.work.zpauli_phase i = s1.work.zpauli_phase i from (h.work.zph i hi).symm]
    by_cases hzp : s1.work.zpauli_phase i = true
    · rw [if_pos hzp, if_pos hzp]
      exact h.emitX2 hi
    · rw [if_neg hzp, if_neg hzp]
      exact h

theorem SEquiv.delayedC {n : Nat} {s1 s2 : SynthS} (h : SEquiv n s1 s2) :
    SEquiv n (delayedStep n s1) (delayedStep n s2) := by
  show SEquiv n ((List.range n).foldl delayedBody s1) ((List.range n).foldl delayedBody s2)
  exact SEquiv.foldBlocks delayedBody (fun i hi t1 t2 ht => ht.delayedBodyC hi)
    (List.range n) (fun i hi => List.mem_range.mp hi) h

theorem SEquiv.stepsAfter1C {n : Nat} {s1 s2 : SynthS} (h : SEquiv n s1 s2) :
    SEquiv n (stepsAfter1 n s1) (stepsAfter1 n s2) :=
  h.step2C.step34C.step5C.step6C.step7C.step89C.step10C.step11C.delayedC

theorem scanRows_go (n i : Nat) (hi : i < n) :
    ∀ (rows : List Nat) (e1 e2 : Mat) (lvc : List (Nat × Nat)),
      (∀ j ∈ rows, j < n) → MatEqOn n e1 e2 → lvcBound n lvc →
      MatEqOn n (scanRows n i e1 lvc rows).1 (scanRows n i e2 lvc rows).1 ∧
      (scanRows n i e1 lvc rows).2 = (scanRows n i e2 lvc rows).2 ∧
      lvcBound n (scanRows n i e1 lvc rows).2 := by
  intro rows
  induction rows with
  | nil => intro e1 e2 lvc _ hm hlb; exact ⟨hm, rfl, hlb⟩
  | cons j rest ih =>
      intro e1 e2 lvc hrows hm hlb
      have hj : j < n := hrows j (List.mem_cons_self _ _)
      have hrest : ∀ x ∈ rest, x < n := fun x hx => hrows x (List.mem_cons_of_mem _ hx)
      have hm2 : e2 j i = e1 j i := (hm j i hj hi).symm
      simp only [scanRows, hm2]
      cases hgm : e1 j i with
      | false =>
          rw [if_neg Bool.false_ne_true, if_neg Bool.false_ne_true]
          exact ih e1 e2 lvc hrest hm hlb
      | true =>
          rw [if_pos rfl, if_pos rfl]
          cases hlk : List.lookup j lvc with
          | none =>
              simp only [hlk]
              refine ⟨hm, trivial, ?_⟩
              intro p hp
              rcases List.mem_append.mp hp with hp | hp
              · exact hlb p hp
              · simp at hp
                rw [hp]
                exact ⟨hj, hi⟩
          | some l =>
              simp only [hlk]
              have hln : l < n := lvc_lookup_bound hlb hlk
              exact ih _ _ lvc hrest (xorColInto_eqOn hm hln) hlb

/-- Extensional equivalence of two step-1 states. -/
def S1Equiv (n : Nat) (a b : Step1S) : Prop :=
  MatEqOn n a.ech b.ech ∧ a.lvc = b.lvc ∧ lvcBound n a.lvc ∧ SEquiv n a.s b.s

/-- Relation between two step-1 outcomes: same shape, equal error message,
equivalent carried states. -/
def step1Rel (n : Nat) :
    Except (String × Step1S) Step1S → Except (String × Step1S) Step1S → Prop
  | .ok a, .ok b => S1Equiv n a b
  | .error (e1, a), .error (e2, b) => e1 = e2 ∧ S1Equiv n a b
  | _, _ => False

theorem step1Col_congr (n i : Nat) (hi : i < n) :
    ∀ a b : Step1S, S1Equiv n a b → step1Rel n (step1Col n i a) (step1Col n i b) := by
  intro a b h
  obtain ⟨ech1, lvc1, s1⟩ := a
  obtain ⟨ech2, lvc2, s2⟩ := b
  obtain ⟨hech, hlvc, hlb, hs⟩ := h
  have hlvc' : lvc1 = lvc2 := hlvc
  subst hlvc'
  obtain ⟨hm1, hl1, hlb1⟩ := scanRows_go n i hi (List.range n) ech1 ech2 lvc1
    (fun j hj => List.mem_range.mp hj) hech hlb
  simp only [step1Col]
  rw [show (scanRows n i ech2 lvc1 (List.range n)).2 =
      (scanRows n i ech1 lvc1 (List.range n)).2 from hl1.symm]
  by_cases hc : (scanRows n i ech1 lvc1 (List.range n)).2.length > i
  · rw [if_pos hc, if_pos hc]
    exact ⟨hm1, rfl, hlb1, hs⟩
  · rw [if_neg hc, if_neg hc]
    have hs' := hs.emitV3 hi
    have hcol : ∀ r, r < n →
        (emitV3 s1 i).work.zpauli_z r i = (emitV3 s2 i).work.zpauli_z r i :=
      fun r hr => hs'.work.zz r i hr hi
    obtain ⟨hm2, hl2, hlb2⟩ := scanRows_go n i hi (List.range n)
      (setColFrom n (scanRows n i ech1 lvc1 (List.range n)).1 i
        (fun r => (emitV3 s1 i).work.zpauli_z r i))
      (setColFrom n (scanRows n i ech2 lvc1 (List.range n)).1 i
        (fun r => (emitV3 s2 i).work.zpauli_z r i))
      (scanRows n i ech1 lvc1 (List.range n)).2
      (fun j hj => List.mem_range.mp hj)
      (setColFrom_eqOn hm1 hcol) hlb1
    rw [show (scanRows n i
        (setColFrom n (scanRows n i ech2 lvc1 (List.range n)).1 i
          (fun r => (emitV3 s2 i).work.zpauli_z r i))
        (scanRows n i ech1 lvc1 (List.range n)).2 (List.range n)).2
      = (scanRows n i
        (setColFrom n (scanRows n i ech1 lvc1 (List.range n)).1 i
          (fun r => (emitV3 s1 i).work.zpauli_z r i))
        (scanRows n i ech1 lvc1 (List.range n)).2 (List.range n)).2 from hl2.symm]
    by_cases hd : ((scanRows n i
        (setColFrom n (scanRows n i ech1 lvc1 (List.range n)).1 i
          (fun r => (emitV3 s1 i).work.zpauli_z r i))
        (scanRows n i ech1 lvc1 (List.range n)).2 (List.range n)).2.length == i) = true
    · rw [if_pos hd, if_pos hd]
      exact ⟨rfl, hm2, rfl, hlb2, hs'⟩
    · rw [if_neg hd, if_neg hd]
      exact ⟨hm2, rfl, hlb2, hs'⟩

theorem step1Fold_congr (n : Nat) :
    ∀ (l : List Nat), (∀ i ∈ l, i < n) →
      ∀ a b : Step1S, S1Equiv n a b →
        step1Rel n (l.foldlM (fun st i => step1Col n i st) a)
          (l.foldlM (fun st i => step1Col n i st) b) := by
  intro l
  induction l with
  | nil => intro _ a b h; exact h
  | cons i rest ih =>
      intro hl a b h
      have hi : i < n := hl i (List.mem_cons_self _ _)
      have hstep := step1Col_congr n i hi a b h
      rw [List.foldlM_cons, List.foldlM_cons]
      cases hra : step1Col n i a with
      | error e1 =>
          cases hrb : step1Col n i b with
          | error e2 =>
              rw [hra, hrb] at hstep
              obtain ⟨m1, a'⟩ := e1
              obtain ⟨m2, b'⟩ := e2
              obtain ⟨hmsg, hst⟩ := hstep
              show step1Rel n (Except.error (m1, a')) (Except.error (m2, b'))
              exact ⟨hmsg, hst⟩
          | ok b' =>
              rw [hra, hrb] at hstep
              obtain ⟨m1, a'⟩ := e1
              exact hstep.elim
      | ok a' =>
          cases hrb : step1Col n i b with
          | error e2 =>
              rw [hra, hrb] at hstep
              obtain ⟨m2, b'⟩ := e2
              exact hstep.elim
          | ok b' =>
              rw [hra, hrb] at hstep
              show step1Rel n (rest.foldlM (fun st i => step1Col n i st) a')
                (rest.foldlM (fun st i => step1Col n i st) b')
              exact ih (fun x hx => hl x (List.mem_cons_of_mem _ hx)) a' b' hstep

/-- Bounded extensional equality of two tableaux: same size, same qubit
list, identical matrix and phase content on the `n × n` window. -/
def tabEquiv (t1 t2 : CliffTableau) : Bool :=
  t1.size == t2.size && t1.qubits == t2.qubits &&
  ((List.range t1.size).all fun i =>
    ((List.range t1.size).all fun j =>
      (t1.xpauli_x i j == t2.xpauli_x i j) && (t1.xpauli_z i j == t2.xpauli_z i j) &&
      (t1.zpauli_x i j == t2.zpauli_x i j) && (t1.zpauli_z i j == t2.zpauli_z i j)) &&
    (t1.xpauli_phase i == t2.xpauli_phase i) && (t1.zpauli_phase i == t2.zpauli_phase i))

theorem tabEquiv_elim {t1 t2 : CliffTableau} (h : tabEquiv t1 t2 = true) :
    t2.size = t1.size ∧ t1.qubits = t2.qubits ∧ WEquiv t1.size t1 t2 := by
  simp only [tabEquiv, Bool.and_eq_true, List.all_eq_true, List.mem_range, beq_iff_eq] at h
  obtain ⟨⟨hsz, hq⟩, hwin⟩ := h
  refine ⟨hsz.symm, hq, rfl, hsz.symm, hq, ?_, ?_, ?_, ?_, ?_, ?_⟩
  · exact fun i j hi hj => ((hwin i hi).1.1 j hj).1.1.1
  · exact fun i j hi hj => ((hwin i hi).1.1 j hj).1.1.2
  · exact fun i hi => (hwin i hi).1.2
  · exact fun i j hi hj => ((hwin i hi).1.1 j hj).1.2
  · exact fun i j hi hj => ((hwin i hi).1.1 j hj).2
  · exact fun i hi => (hwin i hi).2

/-- C5: `tableau_to_circuit` is deterministic: its output is a function of
the input tableau's content alone (size, qubit mapping, the `n × n` matrix
windows and phase vectors), so two calls on the same input yield
byte-identical results — there is no randomness and no unordered iteration
anywhere in the algorithm. -/
theorem tableau_to_circuit_deterministic (t1 t2 : CliffTableau)
    (h : tabEquiv t1 t2 = true) :
    tableau_to_circuit t1 = tableau_to_circuit t2 := by
  obtain ⟨hsz, hq, hw⟩ := tabEquiv_elim h
  have hs0 : SEquiv t1.size
      { orig := t1, work := t1, gates := [], events := [] }
      { orig := t2, work := t2, gates := [], events := [] } := ⟨hw, rfl, rfl⟩
  have ha : S1Equiv t1.size
      ⟨t1.zpauli_x, [], { orig := t1, work := t1, gates := [], events := [] }⟩
      ⟨t2.zpauli_x, [], { orig := t2, work := t2, gates := [], events := [] }⟩ :=
    ⟨hw.zx, rfl, by intro p hp; simp at hp, hs0⟩
  have hrel := step1Fold_congr t1.size (List.range t1.size)
    (fun i hi => List.mem_range.mp hi) _ _ ha
  have e1 : synthRun t1 =
      (match (List.range t1.size).foldlM (fun st i => step1Col t1.size i st)
          ⟨t1.zpauli_x, [], { orig := t1, work := t1, gates := [], events := [] }⟩ with
       | .error (e, st) => (some e, st.s)
       | .ok st => (none, stepsAfter1 t1.size st.s)) := rfl
  have e2 : synthRun t2 =
      (match (List.range t2.size).foldlM (fun st i => step1Col t2.size i st)
          ⟨t2.zpauli_x, [], { orig := t2, work := t2, gates := [], events := [] }⟩ with
       | .error (e, st) => (some e, st.s)
       | .ok st => (none, stepsAfter1 t2.size st.s)) := rfl
  rw [hsz] at e2
  unfold tableau_to_circuit
  rw [e1, e2]
  cases hra : (List.range t1.size).foldlM (fun st i => step1Col t1.size i st)
      ⟨t1.zpauli_x, [], { orig := t1, work := t1, gates := [], events := [] }⟩ with
  | error e1v =>
      cases hrb : (List.range t1.size).foldlM (fun st i => step1Col t1.size i st)
          ⟨t2.zpauli_x, [], { orig := t2, work := t2, gates := [], events := [] }⟩ with
      | error e2v =>
          rw [hra, hrb] at hrel
          obtain ⟨m1, a'⟩ := e1v
          obtain ⟨m2, b'⟩ := e2v
          obtain ⟨hmsg, _⟩ := hrel
          rw [hmsg]
      | ok b' =>
          rw [hra, hrb] at hrel
          obtain ⟨m1, a'⟩ := e1v
          exact hrel.elim
  | ok a' =>
      cases hrb : (List.range t1.size).foldlM (fun st i => step1Col t1.size i st)
          ⟨t2.zpauli_x, [], { orig := t2, work := t2, gates := [], events := [] }⟩ with
      | error e2v =>
          rw [hra, hrb] at hrel
          obtain ⟨m2, b'⟩ := e2v
          exact hrel.elim
      | ok b' =>
          rw [hra, hrb] at hrel
          have hS : S1Equiv t1.size a' b' := hrel
          have hfin := (hS.2.2.2).stepsAfter1C
          show Except.ok (renameCircuit t1.qubits (stepsAfter1 t1.size a'.s).gates)
            = Except.ok (renameCircuit t2.qubits (stepsAfter1 t1.size b'.s).gates)
          rw [hq, hfin.gates]

/-- A tableau agreeing with the one-qubit identity on its window but
differing outside it. -/
def offWindowTab : CliffTableau :=
  { CliffTableau.init [0] with xpauli_x := fun i j => i == j || i == 5 }

/-- Witness for C5: the synthesizer gives identical output on two tableaux
with equal window content that differ outside the window. -/
theorem tableau_to_circuit_deterministic_witness :
    tabEquiv (CliffTableau.init [0]) offWindowTab = true ∧
    tableau_to_circuit (CliffTableau.init [0]) = tableau_to_circuit offWindowTab :=
  ⟨by decide, tableau_to_circuit_deterministic (CliffTableau.init [0]) offWindowTab (by decide)⟩

/-! ### Step-1 failure analysis (stabilizer independence)

GF(2) machinery for the independence argument: a row-dependence certificate
`y` is orthogonal to every column of the echelon scratch matrix throughout
step 1, while a completed run assigns a pivot to every row with a set bit
at the pivot and zeros above it — forcing the certificate to vanish. -/

/-- A Boolean as an element of `GF(2)`. -/
def bitZ (b : Bool) : ZMod 2 := if b then 1 else 0

/-- `GF(2)` dot product of the first `n` bits of two vectors. -/
def dotVec (n : Nat) (y v : Vec) : ZMod 2 :=
  ∑ r ∈ Finset.range n, bitZ (y r) * bitZ (v r)

/-- `GF(2)` dot product of `y` against column `j` of `M`. -/
def dotCol (n : Nat) (y : Vec) (M : Mat) (j : Nat) : ZMod 2 :=
  dotVec n y (fun r => M r j)

/-- A nontrivial `GF(2)` dependence of the stabilizer rows: `y` selects a
nonempty subset of the first `size` rows of `[zpauli_x | zpauli_z]` whose
XOR vanishes on every column of the window — the meaning of "stabilisers
are not mutually independent". -/
def StabRowsDependent (tab : CliffTableau) (y : Vec) : Prop :=
  (∃ i, i < tab.size ∧ y i = true) ∧
  ∀ j, j < tab.size → dotCol tab.size y tab.zpauli_x j = 0 ∧
    dotCol tab.size y tab.zpauli_z j = 0

theorem bitZ_xor (a b : Bool) : bitZ (a ^^ b) = bitZ a + bitZ b := by
  cases a <;> cases b <;> decide

theorem dotVec_congr {n : Nat} {y v w : Vec} (h : ∀ r, r < n → v r = w r) :
    dotVec n y v = dotVec n y w :=
  Finset.sum_congr rfl fun r hr => by rw [h r (Finset.mem_range.mp hr)]

theorem dotVec_xor (n : Nat) (y v w : Vec) :
    dotVec n y (fun r => v r ^^ w r) = dotVec n y v + dotVec n y w := by
  simp only [dotVec]
  rw [← Finset.sum_add_distrib]
  exact Finset.sum_congr rfl fun r _ => by rw [bitZ_xor, mul_add]

theorem dotVec_single {n j : Nat} {y v : Vec} (hj : j < n) (hyj : y j = true)
    (hvj : v j = true) (hlow : ∀ b, b < j → v b = false)
    (hhigh : ∀ b, j < b → b < n → y b = false) :
    dotVec n y v = 1 := by
  simp only [dotVec]
  rw [Finset.sum_eq_single_of_mem j (Finset.mem_range.mpr hj)]
  · rw [hyj, hvj]; decide
  · intro b hb hbne
    rcases Nat.lt_or_gt_of_ne hbne with hlt | hgt
    · rw [hlow b hlt]
      simp [bitZ]
    · rw [hhigh b hgt (Finset.mem_range.mp hb)]
      simp [bitZ]

theorem xorColInto_ne {n : Nat} (M : Mat) {tgt : Nat} (src : Nat) {r c : Nat}
    (h : c ≠ tgt) : xorColInto n M tgt src r c = M r c := by
  simp [xorColInto, h]

theorem xorColInto_tgt {n : Nat} (M : Mat) (tgt src : Nat) {r : Nat} (hr : r < n) :
    xorColInto n M tgt src r tgt = (M r tgt ^^ M r src) := by
  unfold xorColInto
  have hcond : (decide (r < n) && (tgt == tgt)) = true := by simp [hr]
  rw [if_pos hcond]

theorem setColFrom_ne {n : Nat} (M : Mat) {i : Nat} (src : Vec) {r c : Nat}
    (h : c ≠ i) : setColFrom n M i src r c = M r c := by
  simp [setColFrom, h]

theorem setColFrom_at {n : Nat} (M : Mat) (i : Nat) (src : Vec) {r : Nat}
    (hr : r < n) : setColFrom n M i src r i = src r := by
  simp [setColFrom, hr]

theorem lookup_mem {l : List (Nat × Nat)} {a b : Nat}
    (h : List.lookup a l = some b) : (a, b) ∈ l := by
  induction l with
  | nil => exact Option.noConfusion h
  | cons p rest ih =>
      rw [List.lookup] at h
      cases hc : (a == p.1) with
      | true =>
          rw [hc] at h
          have h2 : some p.2 = some b := h
          injection h2 with h3
          have ha : a = p.1 := beq_iff_eq.mp hc
          have hab : (a, b) = p := by rw [ha, ← h3]
          rw [hab]
          exact List.mem_cons_self _ _
      | false =>
          rw [hc] at h
          have h2 : List.lookup a rest = some b := h
          exact List.mem_cons_of_mem _ (ih h2)

theorem lookup_none_notmem {l : List (Nat × Nat)} {a : Nat}
    (h : List.lookup a l = none) (c : Nat) : (a, c) ∉ l := by
  induction l with
  | nil => simp
  | cons p rest ih =>
      rw [List.lookup] at h
      cases hc : (a == p.1) with
      | true =>
          rw [hc] at h
          exact Option.noConfusion h
      | false =>
          rw [hc] at h
          have h2 : List.lookup a rest = none := h
          intro hmem
          rcases List.mem_cons.mp hmem with heq | hmem2
          · have h1 : p.1 = a := by rw [← heq]
            rw [h1] at hc
            simp at hc
          · exact ih h2 hmem2

theorem nodup_snoc {l : List Nat} {a : Nat} (hnd : l.Nodup) (ha : a ∉ l) :
    (l ++ [a]).Nodup := by
  rw [List.nodup_append]
  refine ⟨hnd, List.nodup_singleton a, fun x hx hxa => ?_⟩
  rw [List.mem_singleton] at hxa
  exact ha (hxa ▸ hx)

theorem emitV3_zz (s : SynthS) (q : Nat) :
    (emitV3 s q).work.zpauli_z = s.work.zpauli_z := rfl

/-- Pivot structure of the step-1 scratch matrix: each assigned pivot row
holds a set bit in its pivot column, with zeros strictly above it. -/
def PivOK (n : Nat) (ech : Mat) (lvc : List (Nat × Nat)) : Prop :=
  ∀ p ∈ lvc, p.1 < n ∧ ech p.1 p.2 = true ∧ ∀ r, r < p.1 → ech r p.2 = false

theorem scanRows_spec (n i : Nat) (y : Vec) (hi : i < n) :
    ∀ (k a : Nat) (ech : Mat) (lvc : List (Nat × Nat)),
      a + k = n →
      PivOK n ech lvc →
      (∀ p ∈ lvc, p.2 ≠ i ∧ p.2 < n) →
      (∀ r, r < a → ech r i = false) →
      (∀ c, c < n → dotCol n y ech c = 0) →
      PivOK n (scanRows n i ech lvc (List.range' a k)).1
        (scanRows n i ech lvc (List.range' a k)).2 ∧
      ((scanRows n i ech lvc (List.range' a k)).2 = lvc ∧
          (∀ r, r < n → (scanRows n i ech lvc (List.range' a k)).1 r i = false) ∨
        ∃ j, j < n ∧ List.lookup j lvc = none ∧
          (scanRows n i ech lvc (List.range' a k)).2 = lvc ++ [(j, i)]) ∧
      (∀ c, c < n → dotCol n y (scanRows n i ech lvc (List.range' a k)).1 c = 0) := by
  intro k
  induction k with
  | zero =>
      intro a ech lvc hak hpiv hcol hpre horth
      have hr : List.range' a 0 = [] := rfl
      rw [hr]
      exact ⟨hpiv, Or.inl ⟨rfl, fun r hrn => hpre r (by omega)⟩, horth⟩
  | succ m ih =>
      intro a ech lvc hak hpiv hcol hpre horth
      have han : a < n := by omega
      have hr : List.range' a (m + 1) = a :: List.range' (a + 1) m := rfl
      rw [hr]
      simp only [scanRows]
      cases hea : ech a i with
      | false =>
          rw [if_neg Bool.false_ne_true]
          exact ih (a + 1) ech lvc (by omega) hpiv hcol
            (fun r hr2 => by
              rcases Nat.lt_or_ge r a with h1 | h1
              · exact hpre r h1
              · have hra : r = a := by omega
                rw [hra]; exact hea)
            horth
      | true =>
          rw [if_pos rfl]
          cases hlk : List.lookup a lvc with
          | none =>
              simp only [hlk]
              refine ⟨?_, Or.inr ⟨a, han, hlk, rfl⟩, horth⟩
              intro p hp
              rcases List.mem_append.mp hp with hp1 | hp1
              · exact hpiv p hp1
              · simp at hp1
                rw [hp1]
                exact ⟨han, hea, fun r hr2 => hpre r hr2⟩
          | some l0 =>
              simp only [hlk]
              have hmem : (a, l0) ∈ lvc := lookup_mem hlk
              have hcne : l0 ≠ i := (hcol (a, l0) hmem).1
              have hcn : l0 < n := (hcol (a, l0) hmem).2
              have hel : ech a l0 = true := (hpiv (a, l0) hmem).2.1
              have habove : ∀ r, r < a → ech r l0 = false := (hpiv (a, l0) hmem).2.2
              refine ih (a + 1) (xorColInto n ech i l0) lvc (by omega) ?_ hcol ?_ ?_
              · intro p hp
                obtain ⟨h1, h2, h3⟩ := hpiv p hp
                have h4 : p.2 ≠ i := (hcol p hp).1
                exact ⟨h1, by rw [xorColInto_ne ech l0 h4]; exact h2,
                  fun r hr2 => by rw [xorColInto_ne ech l0 h4]; exact h3 r hr2⟩
              · intro r hr2
                rcases Nat.lt_or_ge r a with h1 | h1
                · rw [xorColInto_tgt ech i l0 (by omega : r < n)]
                  rw [hpre r h1, habove r h1]
                  rfl
                · have hra : r = a := by omega
                  rw [hra, xorColInto_tgt ech i l0 han]
                  rw [hea, hel]
                  rfl
              · intro c hc
                by_cases hci : c = i
                · rw [hci]
                  have hcongr : dotCol n y (xorColInto n ech i l0) i
                      = dotVec n y (fun r => ech r i ^^ ech r l0) := by
                    simp only [dotCol]
                    exact dotVec_congr fun r hr2 => xorColInto_tgt ech i l0 hr2
                  rw [hcongr, dotVec_xor]
                  show dotCol n y ech i + dotCol n y ech l0 = 0
                  rw [horth i hi, horth l0 hcn]
                  exact add_zero 0
                · have hcongr : dotCol n y (xorColInto n ech i l0) c
                      = dotCol n y ech c := by
                    simp only [dotCol]
                    exact dotVec_congr fun r hr2 => xorColInto_ne ech l0 hci
                  rw [hcongr]
                  exact horth c hc

/-- Invariant of the step-1 column loop before processing column `i`:
`i` pivots assigned, to distinct rows, all in columns before `i`, with the
echelon pivot structure; the dependence certificate `y` is orthogonal to
every scratch column; the working `zpauli_z` is still the caller's. -/
def Step1Inv (n : Nat) (Z0 : Mat) (y : Vec) (i : Nat) (st : Step1S) : Prop :=
  st.lvc.length = i ∧
  (st.lvc.map Prod.fst).Nodup ∧
  (∀ p ∈ st.lvc, p.2 < i) ∧
  PivOK n st.ech st.lvc ∧
  (∀ c, c < n → dotCol n y st.ech c = 0) ∧
  st.s.work.zpauli_z = Z0

theorem step1Col_err (n i : Nat) (st : Step1S) :
    ∀ e st2, step1Col n i st = Except.error (e, st2) → e = stabErrMsg := by
  intro e st2 h
  simp only [step1Col] at h
  by_cases hc : (scanRows n i st.ech st.lvc (List.range n)).2.length > i
  · rw [if_pos hc] at h
    exact absurd h (by simp)
  · rw [if_neg hc] at h
    by_cases hd : ((scanRows n i
        (setColFrom n (scanRows n i st.ech st.lvc (List.range n)).1 i
          (fun r => (emitV3 st.s i).work.zpauli_z r i))
        (scanRows n i st.ech st.lvc (List.range n)).2 (List.range n)).2.length == i) = true
    · rw [if_pos hd] at h
      have h2 := Except.error.inj h
      exact ((Prod.mk.injEq _ _ _ _).mp h2).1.symm
    · rw [if_neg hd] at h
      exact absurd h (by simp)

theorem step1Fold_err (n : Nat) :
    ∀ (l : List Nat) (st : Step1S) (e : String) (stE : Step1S),
      l.foldlM (fun st i => step1Col n i st) st = Except.error (e, stE) →
      e = stabErrMsg := by
  intro l
  induction l with
  | nil =>
      intro st e stE h
      exact Except.noConfusion h
  | cons i rest ih =>
      intro st e stE h
      rw [List.foldlM_cons] at h
      cases hra : step1Col n i st with
      | error p =>
          rw [hra] at h
          obtain ⟨e0, st0⟩ := p
          have h2 : (Except.error (e0, st0) : Except (String × Step1S) Step1S)
              = Except.error (e, stE) := h
          have h3 := (Prod.mk.injEq _ _ _ _).mp (Except.error.inj h2)
          rw [← h3.1]
          exact step1Col_err n i st e0 st0 hra
      | ok st1 =>
          rw [hra] at h
          have h2 : rest.foldlM (fun st i => step1Col n i st) st1
              = Except.error (e, stE) := h
          exact ih st1 e stE h2

theorem step1Col_inv (n i : Nat) (hi : i < n) (Z0 : Mat) (y : Vec)
    (hZ : ∀ c, c < n → dotCol n y Z0 c = 0) :
    ∀ st st2, Step1Inv n Z0 y i st → step1Col n i st = Except.ok st2 →
      Step1Inv n Z0 y (i + 1) st2 := by
  intro st st2 hinv h
  obtain ⟨hlen, hnd, hcb, hpiv, horth, hzz⟩ := hinv
  have hcol : ∀ p ∈ st.lvc, p.2 ≠ i ∧ p.2 < n :=
    fun p hp => ⟨by have := hcb p hp; omega, by have := hcb p hp; omega⟩
  obtain ⟨hp1, hd1, ho1⟩ := scanRows_spec n i y hi n 0 st.ech st.lvc (by omega)
    hpiv hcol (fun r hr => absurd hr (Nat.not_lt_zero r)) horth
  rw [← List.range_eq_range'] at hp1 hd1 ho1
  simp only [step1Col] at h
  by_cases hc : (scanRows n i st.ech st.lvc (List.range n)).2.length > i
  · rw [if_pos hc] at h
    rcases hd1 with ⟨heq1, _⟩ | ⟨j1, hj1n, hj1lk, heq1⟩
    · rw [heq1, hlen] at hc
      exact absurd hc (Nat.lt_irrefl i)
    · injection h with h2
      rw [← h2]
      refine ⟨?_, ?_, ?_, hp1, ho1, hzz⟩
      · show (scanRows n i st.ech st.lvc (List.range n)).2.length = i + 1
        rw [heq1, List.length_append, hlen]
        rfl
      · show ((scanRows n i st.ech st.lvc (List.range n)).2.map Prod.fst).Nodup
        rw [heq1, List.map_append]
        refine nodup_snoc hnd fun hmem => ?_
        obtain ⟨p, hp, hpj⟩ := List.mem_map.mp hmem
        obtain ⟨p1, p2⟩ := p
        simp at hpj
        rw [hpj] at hp
        exact lookup_none_notmem hj1lk p2 hp
      · intro p hp
        show p.2 < i + 1
        rw [heq1] at hp
        rcases List.mem_append.mp hp with hp1 | hp1
        · have := hcb p hp1; omega
        · simp at hp1
          rw [hp1]
          show i < i + 1
          omega
  · rw [if_neg hc] at h
    rcases hd1 with ⟨heq1, _⟩ | ⟨j1, hj1n, hj1lk, heq1⟩
    · -- the V branch: refresh column i from the untouched zpauli_z, rescan
      rw [heq1] at hp1
      have hsrc : (fun r => (emitV3 st.s i).work.zpauli_z r i)
          = (fun r => Z0 r i) := by
        rw [emitV3_zz st.s i, hzz]
      rw [hsrc, heq1] at h
      have hpiv2 : PivOK n (setColFrom n (scanRows n i st.ech st.lvc (List.range n)).1 i
          (fun r => Z0 r i)) st.lvc := by
        intro p hp
        obtain ⟨h1, h2, h3⟩ := hp1 p hp
        have h4 : p.2 ≠ i := (hcol p hp).1
        exact ⟨h1, by rw [setColFrom_ne _ _ h4]; exact h2,
          fun r hr2 => by rw [setColFrom_ne _ _ h4]; exact h3 r hr2⟩
      have horth2 : ∀ c, c < n → dotCol n y
          (setColFrom n (scanRows n i st.ech st.lvc (List.range n)).1 i
            (fun r => Z0 r i)) c = 0 := by
        intro c hc2
        by_cases hci : c = i
        · rw [hci]
          have hcongr : dotCol n y
              (setColFrom n (scanRows n i st.ech st.lvc (List.range n)).1 i
                (fun r => Z0 r i)) i = dotCol n y Z0 i := by
            simp only [dotCol]
            exact dotVec_congr fun r hr2 => setColFrom_at _ i _ hr2
          rw [hcongr]
          exact hZ i hi
        · have hcongr : dotCol n y
              (setColFrom n (scanRows n i st.ech st.lvc (List.range n)).1 i
                (fun r => Z0 r i)) c
              = dotCol n y (scanRows n i st.ech st.lvc (List.range n)).1 c := by
            simp only [dotCol]
            exact dotVec_congr fun r hr2 => setColFrom_ne _ _ hci
          rw [hcongr]
          exact ho1 c hc2
      obtain ⟨hp2, hd2, ho2⟩ := scanRows_spec n i y hi n 0
        (setColFrom n (scanRows n i st.ech st.lvc (List.range n)).1 i
          (fun r => Z0 r i)) st.lvc (by omega)
        hpiv2 hcol (fun r hr => absurd hr (Nat.not_lt_zero r)) horth2
      rw [← List.range_eq_range'] at hp2 hd2 ho2
      by_cases hd : ((scanRows n i
          (setColFrom n (scanRows n i st.ech st.lvc (List.range n)).1 i
            (fun r => Z0 r i)) st.lvc (List.range n)).2.length == i) = true
      · rw [if_pos hd] at h
        exact absurd h (by simp)
      · rw [if_neg hd] at h
        rcases hd2 with ⟨heq2, _⟩ | ⟨j2, hj2n, hj2lk, heq2⟩
        · exfalso
          apply hd
          rw [heq2, hlen]
          simp
        · injection h with h2
          rw [← h2]
          refine ⟨?_, ?_, ?_, hp2, ho2, ?_⟩
          · show (scanRows n i
                (setColFrom n (scanRows n i st.ech st.lvc (List.range n)).1 i
                  (fun r => Z0 r i)) st.lvc (List.range n)).2.length = i + 1
            rw [heq2, List.length_append, hlen]
            rfl
          · show ((scanRows n i
                (setColFrom n (scanRows n i st.ech st.lvc (List.range n)).1 i
                  (fun r => Z0 r i)) st.lvc (List.range n)).2.map Prod.fst).Nodup
            rw [heq2, List.map_append]
            refine nodup_snoc hnd fun hmem => ?_
            obtain ⟨p, hp, hpj⟩ := List.mem_map.mp hmem
            obtain ⟨p1, p2⟩ := p
            simp at hpj
            rw [hpj] at hp
            exact lookup_none_notmem hj2lk p2 hp
          · intro p hp
            show p.2 < i + 1
            rw [heq2] at hp
            rcases List.mem_append.mp hp with hp1 | hp1
            · have := hcb p hp1; omega
            · simp at hp1
              rw [hp1]
              show i < i + 1
              omega
          · show (emitV3 st.s i).work.zpauli_z = Z0
            rw [emitV3_zz]
            exact hzz
    · exfalso
      apply hc
      rw [heq1, List.length_append, hlen]
      show i + 1 > i
      omega

theorem step1Fold_inv (n : Nat) (Z0 : Mat) (y : Vec)
    (hZ : ∀ c, c < n → dotCol n y Z0 c = 0) :
    ∀ (k a : Nat) (st st2 : Step1S), a + k = n → Step1Inv n Z0 y a st →
      (List.range' a k).foldlM (fun st i => step1Col n i st) st = Except.ok st2 →
      Step1Inv n Z0 y n st2 := by
  intro k
  induction k with
  | zero =>
      intro a st st2 hak hinv h
      have h2 : (Except.ok st : Except (String × Step1S) Step1S) = Except.ok st2 := h
      injection h2 with h3
      have han : a = n := by omega
      rw [han] at hinv
      rw [← h3]
      exact hinv
  | succ m ih =>
      intro a st st2 hak hinv h
      have hr : List.range' a (m + 1) = a :: List.range' (a + 1) m := rfl
      rw [hr, List.foldlM_cons] at h
      cases hra : step1Col n a st with
      | error p =>
          rw [hra] at h
          obtain ⟨e0, st0⟩ := p
          have h2 : (Except.error (e0, st0) : Except (String × Step1S) Step1S)
              = Except.ok st2 := h
          exact absurd h2 (by simp)
      | ok st1 =>
          rw [hra] at h
          have h2 : (List.range' (a + 1) m).foldlM (fun st i => step1Col n i st) st1
              = Except.ok st2 := h
          exact ih (a + 1) st1 st2 (by omega)
            (step1Col_inv n a (by omega) Z0 y hZ st st1 hinv hra) h2

theorem full_pivots {n : Nat} {lvc : List (Nat × Nat)}
    (hlen : lvc.length = n) (hnd : (lvc.map Prod.fst).Nodup)
    (hlt : ∀ p ∈ lvc, p.1 < n) :
    ∀ j, j < n → ∃ c, (j, c) ∈ lvc := by
  intro j hj
  have hsub : (lvc.map Prod.fst).toFinset ⊆ Finset.range n := by
    intro x hx
    obtain ⟨p, hp, hpx⟩ := List.mem_map.mp (List.mem_toFinset.mp hx)
    exact Finset.mem_range.mpr (hpx ▸ hlt p hp)
  have hcard : (Finset.range n).card ≤ (lvc.map Prod.fst).toFinset.card := by
    rw [List.toFinset_card_of_nodup hnd, List.length_map, hlen, Finset.card_range]
  have hEq := Finset.eq_of_subset_of_card_le hsub hcard
  have hjmem : j ∈ (lvc.map Prod.fst).toFinset := by
    rw [hEq]
    exact Finset.mem_range.mpr hj
  obtain ⟨p, hp, hpj⟩ := List.mem_map.mp (List.mem_toFinset.mp hjmem)
  obtain ⟨p1, p2⟩ := p
  simp at hpj
  rw [hpj] at hp
  exact ⟨p2, hp⟩

theorem runStep1_ok_independent (tab : CliffTableau) (y : Vec) (st : Step1S)
    (hok : runStep1 tab.size { orig := tab, work := tab, gates := [], events := [] }
      = Except.ok st)
    (hdep : StabRowsDependent tab y) : False := by
  have hinv0 : Step1Inv tab.size tab.zpauli_z y 0
      { ech := tab.zpauli_x, lvc := [],
        s := { orig := tab, work := tab, gates := [], events := [] } } := by
    refine ⟨rfl, List.nodup_nil, ?_, ?_, ?_, rfl⟩
    · intro p hp; exact absurd hp (List.not_mem_nil p)
    · intro p hp; exact absurd hp (List.not_mem_nil p)
    · intro c hc; exact (hdep.2 c hc).1
  unfold runStep1 at hok
  rw [List.range_eq_range'] at hok
  have hfin := step1Fold_inv tab.size tab.zpauli_z y
    (fun c hc => (hdep.2 c hc).2) tab.size 0 _ st (by omega) hinv0 hok
  obtain ⟨hlen, hnd, hcb, hpiv, horth, _⟩ := hfin
  obtain ⟨i0, hi0, hyi0⟩ := hdep.1
  have hSne : ((Finset.range tab.size).filter (fun b => y b = true)).Nonempty :=
    ⟨i0, Finset.mem_filter.mpr ⟨Finset.mem_range.mpr hi0, hyi0⟩⟩
  obtain ⟨jm, hjmem, hjmax⟩ := Finset.exists_max_image
    ((Finset.range tab.size).filter (fun b => y b = true)) (fun b => b) hSne
  obtain ⟨hjr, hjy⟩ := Finset.mem_filter.mp hjmem
  have hjn : jm < tab.size := Finset.mem_range.mp hjr
  have hhigh : ∀ b, jm < b → b < tab.size → y b = false := by
    intro b hb hbn
    cases hyb : y b with
    | false => rfl
    | true =>
        have h2 := hjmax b (Finset.mem_filter.mpr ⟨Finset.mem_range.mpr hbn, hyb⟩)
        have h3 : b ≤ jm := h2
        omega
  obtain ⟨c, hc⟩ := full_pivots hlen hnd (fun p hp => (hpiv p hp).1) jm hjn
  have hcn : c < tab.size := hcb (jm, c) hc
  have hpt : st.ech jm c = true := (hpiv (jm, c) hc).2.1
  have habove : ∀ r, r < jm → st.ech r c = false := (hpiv (jm, c) hc).2.2
  have h1 : dotCol tab.size y st.ech c = 1 :=
    dotVec_single hjn hjy hpt habove hhigh
  rw [horth c hcn] at h1
  exact absurd h1 (by decide)

theorem tableau_to_circuit_err_eq (tab : CliffTableau) (e0 : String) (st0 : Step1S)
    (hR : runStep1 tab.size { orig := tab, work := tab, gates := [], events := [] }
      = Except.error (e0, st0)) :
    tableau_to_circuit tab = Except.error e0 := by
  have hs : synthRun tab = (some e0, st0.s) := by
    show (match runStep1 tab.size
        { orig := tab, work := tab, gates := [], events := [] } with
      | .error (e, st) => (some e, st.s)
      | .ok st => (none, stepsAfter1 tab.size st.s)) = (some e0, st0.s)
    rw [hR]
  show (match synthRun tab with
    | (some e, _) => Except.error e
    | (none, s) => Except.ok (renameCircuit tab.qubits s.gates)) = Except.error e0
  rw [hs]

theorem tableau_to_circuit_ok_eq (tab : CliffTableau) (st : Step1S)
    (hR : runStep1 tab.size { orig := tab, work := tab, gates := [], events := [] }
      = Except.ok st) :
    tableau_to_circuit tab
      = Except.ok (renameCircuit tab.qubits (stepsAfter1 tab.size st.s).gates) := by
  have hs : synthRun tab = (none, stepsAfter1 tab.size st.s) := by
    show (match runStep1 tab.size
        { orig := tab, work := tab, gates := [], events := [] } with
      | .error (e, st) => (some e, st.s)
      | .ok st => (none, stepsAfter1 tab.size st.s)) = (none, stepsAfter1 tab.size st.s)
    rw [hR]
  show (match synthRun tab with
    | (some e, _) => Except.error e
    | (none, s) => Except.ok (renameCircuit tab.qubits s.gates)) =
      Except.ok (renameCircuit tab.qubits (stepsAfter1 tab.size st.s).gates)
  rw [hs]

/-- C4: for every tableau whose stabilizer rows admit a nontrivial GF(2)
dependence (the rows of `[zpauli_x | zpauli_z]` are not mutually
independent, certified by `y`), `tableau_to_circuit` fails with the step-1
"Stabilisers are not mutually independent" error and returns no circuit;
and this is the synthesizer's only failure: any error it ever returns
carries exactly that message. -/
theorem stabiliser_independence_failure (tab : CliffTableau) (y : Vec) :
    (∀ e, tableau_to_circuit tab = Except.error e → e = stabErrMsg) ∧
    (StabRowsDependent tab y → tableau_to_circuit tab = Except.error stabErrMsg) := by
  constructor
  · intro e he
    cases hR : runStep1 tab.size
        { orig := tab, work := tab, gates := [], events := [] } with
    | error p =>
        obtain ⟨e0, st0⟩ := p
        have hmsg : e0 = stabErrMsg := by
          unfold runStep1 at hR
          exact step1Fold_err tab.size (List.range tab.size) _ e0 st0 hR
        have hT := tableau_to_circuit_err_eq tab e0 st0 hR
        rw [hT] at he
        injection he with h2
        rw [← h2]
        exact hmsg
    | ok st =>
        have hT := tableau_to_circuit_ok_eq tab st hR
        rw [hT] at he
        exact absurd he (by simp)
  · intro hdep
    cases hR : runStep1 tab.size
        { orig := tab, work := tab, gates := [], events := [] } with
    | error p =>
        obtain ⟨e0, st0⟩ := p
        have hmsg : e0 = stabErrMsg := by
          unfold runStep1 at hR
          exact step1Fold_err tab.size (List.range tab.size) _ e0 st0 hR
        have hT := tableau_to_circuit_err_eq tab e0 st0 hR
        rw [hT, hmsg]
    | ok st =>
        exact absurd hdep fun hd => runStep1_ok_independent tab y st hR hd

instance stabRowsDependentDec (tab : CliffTableau) (y : Vec) :
    Decidable (StabRowsDependent tab y) := by
  unfold StabRowsDependent
  infer_instance

/-- A two-qubit tableau whose two stabilizer rows are identical (both
`Z` on qubit 0), with the standard identity destabilizers. -/
def depTab : CliffTableau :=
  { CliffTableau.init [0, 1] with zpauli_z := fun _ j => j == 0 }

/-- Witness for C4: the dependent two-qubit tableau makes the synthesizer
fail with the independence message, and that message is the only failure. -/
theorem stabiliser_independence_failure_witness :
    StabRowsDependent depTab (fun i => decide (i < 2)) ∧
    tableau_to_circuit depTab = Except.error stabErrMsg ∧
    stabErrMsg = stabErrMsg :=
  ⟨by decide,
   (stabiliser_independence_failure depTab (fun i => decide (i < 2))).2 (by decide),
   (stabiliser_independence_failure depTab (fun i => decide (i < 2))).1 stabErrMsg
     ((stabiliser_independence_failure depTab (fun i => decide (i < 2))).2 (by decide))⟩

end Tket
